import Mathlib

/-!
Verification development for TreeCorr's `binnedcorr2.py` (class `BinnedCorr2` and
the module-level covariance estimators).

The embedding idealizes Python floats as elements of a linear ordered field
(instantiated with `ℝ` in the theorems about binning, where `math.log` and
`math.exp` become `Real.log` and `Real.exp`, and with `ℚ` in the covariance
layer, which uses only field arithmetic).  `numpy` arrays of statistics are
modeled as functions `ℕ → ℚ` together with an explicit length.  Python dicts
keyed by patch pairs are modeled as association lists in insertion order.
`sep_units` is taken at its default (`'radians'`, numeric value 1), so the
unit conversions on lines 406-413 of the source are identities and are omitted.
-/

/-- The `bin_type` parameter: 'Log', 'Linear' or 'TwoD' (config-validated). -/
inductive BinType
  | Log
  | Linear
  | TwoD
deriving DecidableEq

/-- The exceptions raised while resolving the binning parameters in
`BinnedCorr2.__init__` (lines 278-318): `TypeError` for a wrong set of
supplied parameters, `ValueError` for `min_sep >= max_sep`. -/
inductive ConfigError
  | missingMaxSep
  | missingMinSep
  | missingBinSize
  | minGeMax
  | twoDTooMany
  | fourParams
deriving DecidableEq

/-- The caller-supplied binning configuration: which of
`nbins, bin_size, min_sep, max_sep` are present in `self.config`,
plus the optional `bin_slop`.  `K` is the idealized float type. -/
structure BinConfig (K : Type) where
  bin_type : BinType
  min_sep : Option K
  max_sep : Option K
  bin_size : Option K
  nbins : Option ℤ
  bin_slop : Option K

/-- The state after the parameter-count validation (lines 278-318): each of the
four binning parameters is either the supplied/defaulted value or Python `None`.
In branch order the source sets exactly one of the four to `None`. -/
structure PreSpec (K : Type) where
  bin_type : BinType
  min_sep : Option K
  max_sep : Option K
  bin_size : Option K
  nbins : Option ℤ

/-- Lines 278-318 of `BinnedCorr2.__init__`: the branch on which of
`nbins, bin_size, max_sep` are in the config, the required-parameter
`TypeError`s, the `min_sep >= max_sep` `ValueError`, the TwoD / 4-parameter
`TypeError`s, and the defaulting `min_sep = config.get('min_sep', 0)`. -/
def validateParams {K : Type} [LinearOrderedField K] (cfg : BinConfig K) :
    Except ConfigError (PreSpec K) :=
  match cfg.nbins with
  | none =>
    -- 'nbins' not in self.config
    match cfg.max_sep with
    | none => .error .missingMaxSep
    | some M =>
      if cfg.min_sep = none ∧ cfg.bin_type ≠ .TwoD then .error .missingMinSep
      else
        match cfg.bin_size with
        | none => .error .missingBinSize
        | some bs =>
          let m := cfg.min_sep.getD 0
          if m ≥ M then .error .minGeMax
          else .ok ⟨cfg.bin_type, some m, some M, some bs, none⟩
  | some n =>
    match cfg.bin_size with
    | none =>
      -- 'bin_size' not in self.config
      match cfg.max_sep with
      | none => .error .missingMaxSep
      | some M =>
        if cfg.min_sep = none ∧ cfg.bin_type ≠ .TwoD then .error .missingMinSep
        else
          let m := cfg.min_sep.getD 0
          if m ≥ M then .error .minGeMax
          else .ok ⟨cfg.bin_type, some m, some M, none, some n⟩
    | some bs =>
      match cfg.max_sep with
      | none =>
        -- 'max_sep' not in self.config
        if cfg.min_sep = none ∧ cfg.bin_type ≠ .TwoD then .error .missingMinSep
        else .ok ⟨cfg.bin_type, some (cfg.min_sep.getD 0), none, some bs, some n⟩
      | some M =>
        if cfg.bin_type = .TwoD then .error .twoDTooMany
        else if cfg.min_sep.isSome then .error .fourParams
        else .ok ⟨cfg.bin_type, none, some M, some bs, some n⟩

/-- The fully resolved binning state after lines 320-431: the four scalar
parameters, and the slop-derived quantities `bin_slop`, `b` and the
`NumericalWarning` flag from lines 421-431. -/
structure BinSpecR (K : Type) where
  bin_type : BinType
  min_sep : K
  max_sep : K
  bin_size : K
  nbins : ℤ
  bin_slop : K
  b : K
  slop_warn : Bool

/-- Lines 421-431: `bin_slop` defaults to `min(max_good_slop, 1.0)` when not
supplied (the config default is -1.0 and any negative value takes the default);
`b = min_log_bin_size * bin_slop`; the warning fires when
`bin_slop > max_good_slop + 0.0001` and is non-fatal. -/
def finishSlop {K : Type} [LinearOrderedField K] (bt : BinType)
    (m M bs : K) (n : ℤ) (minLog maxGood : K) (slopOpt : Option K) : BinSpecR K :=
  let slop0 := slopOpt.getD (-1)
  let slop := if slop0 < 0 then min maxGood 1 else slop0
  { bin_type := bt, min_sep := m, max_sep := M, bin_size := bs, nbins := n,
    bin_slop := slop, b := minLog * slop,
    slop_warn := decide (slop > maxGood + 1 / 10000) }

/-- Lines 320-395 plus 421-431: derive the missing parameter per `bin_type`,
then the slop quantities.  `rlog`/`rexp` stand for `math.log`/`math.exp`.
Returns `none` where the Python code would crash on a `None` operand (which
cannot happen for the output of `validateParams`). -/
def deriveSpec {K : Type} [LinearOrderedField K] [FloorRing K]
    (rlog rexp : K → K) (slopOpt : Option K) (p : PreSpec K) :
    Option (BinSpecR K) :=
  match p.bin_type with
  | .Log =>
    match p.nbins, p.bin_size, p.min_sep, p.max_sep with
    | none, some bs, some m, some M =>
      -- nbins = ceil(log(max_sep/min_sep)/bin_size); bin_size recomputed
      let n : ℤ := Int.ceil (rlog (M / m) / bs)
      let bs2 := rlog (M / m) / (n : K)
      some (finishSlop .Log m M bs2 n bs2 (1 / 10 / bs2) slopOpt)
    | some n, none, some m, some M =>
      let bs := rlog (M / m) / (n : K)
      some (finishSlop .Log m M bs n bs (1 / 10 / bs) slopOpt)
    | some n, some bs, some m, none =>
      let M := rexp ((n : K) * bs) * m
      some (finishSlop .Log m M bs n bs (1 / 10 / bs) slopOpt)
    | some n, some bs, _, some M =>
      let m := M * rexp (-((n : K) * bs))
      some (finishSlop .Log m M bs n bs (1 / 10 / bs) slopOpt)
    | _, _, _, _ => none
  | .Linear =>
    match p.nbins, p.bin_size, p.min_sep, p.max_sep with
    | none, some bs, some m, some M =>
      let n : ℤ := Int.ceil ((M - m) / bs)
      let bs2 := (M - m) / (n : K)
      some (finishSlop .Linear m M bs2 n (bs2 / M) (1 / 10 / (bs2 / (m + bs2 / 2))) slopOpt)
    | some n, none, some m, some M =>
      let bs := (M - m) / (n : K)
      some (finishSlop .Linear m M bs n (bs / M) (1 / 10 / (bs / (m + bs / 2))) slopOpt)
    | some n, some bs, some m, none =>
      let M := m + (n : K) * bs
      some (finishSlop .Linear m M bs n (bs / M) (1 / 10 / (bs / (m + bs / 2))) slopOpt)
    | some n, some bs, _, some M =>
      let m := M - (n : K) * bs
      some (finishSlop .Linear m M bs n (bs / M) (1 / 10 / (bs / (m + bs / 2))) slopOpt)
    | _, _, _, _ => none
  | .TwoD =>
    match p.nbins, p.bin_size, p.min_sep, p.max_sep with
    | none, some bs, some m, some M =>
      let n : ℤ := Int.ceil (2 * M / bs)
      let bs2 := 2 * M / (n : K)
      some (finishSlop .TwoD m M bs2 n (bs2 / M) (1 / 10 / (bs2 / (m + bs2 / 2))) slopOpt)
    | some n, none, some m, some M =>
      let bs := 2 * M / (n : K)
      some (finishSlop .TwoD m M bs n (bs / M) (1 / 10 / (bs / (m + bs / 2))) slopOpt)
    | some n, some bs, some m, _ =>
      let M := (n : K) * bs / 2
      some (finishSlop .TwoD m M bs n (bs / M) (1 / 10 / (bs / (m + bs / 2))) slopOpt)
    | _, _, _, _ => none

/-- The whole binning resolution of `BinnedCorr2.__init__` restricted to the
binning/slop state (lines 278-431): validation then derivation. -/
def resolveBinSpec {K : Type} [LinearOrderedField K] [FloorRing K]
    (rlog rexp : K → K) (cfg : BinConfig K) :
    Except ConfigError (Option (BinSpecR K)) :=
  (validateParams cfg).map (deriveSpec rlog rexp cfg.bin_slop)

/-- Lines 333-336 for Log binning: `logr[k] = k*bin_size + (log(min_sep) + 0.5*bin_size)`
(the linspace step from 0 to nbins*bin_size over nbins entries is bin_size). -/
def logLogr {K : Type} [LinearOrderedField K] (rlog : K → K) (s : BinSpecR K) (k : ℕ) : K :=
  (k : K) * s.bin_size + (rlog s.min_sep + s.bin_size / 2)

/-- Line 337: `rnom = exp(logr)`. -/
def logRnom {K : Type} [LinearOrderedField K] (rlog rexp : K → K) (s : BinSpecR K) (k : ℕ) : K :=
  rexp (logLogr rlog s k)

/-- Lines 338-339: `left_edges = rnom / exp(0.5*bin_size)`. -/
def logLeftEdge {K : Type} [LinearOrderedField K] (rlog rexp : K → K)
    (s : BinSpecR K) (k : ℕ) : K :=
  logRnom rlog rexp s k / rexp (s.bin_size / 2)

/-- Line 340: `right_edges = rnom * exp(0.5*bin_size)`. -/
def logRightEdge {K : Type} [LinearOrderedField K] (rlog rexp : K → K)
    (s : BinSpecR K) (k : ℕ) : K :=
  logRnom rlog rexp s k * rexp (s.bin_size / 2)

/-- How many of the four binning parameters were supplied by the caller. -/
def countSupplied {K : Type} (cfg : BinConfig K) : ℕ :=
  (if cfg.min_sep.isSome then 1 else 0) + (if cfg.max_sep.isSome then 1 else 0)
    + (if cfg.bin_size.isSome then 1 else 0) + (if cfg.nbins.isSome then 1 else 0)

/-- Whether an `Except` result is a success. -/
def exceptOk {ε α : Type} : Except ε α → Bool
  | .ok _ => true
  | .error _ => false

/-- A finalized per-patch-pair result as the covariance estimators read it:
the `_getStat()` and `_getWeight()` vectors of one stored `self.results` entry
(vector length is kept on the owning correlation object as `statLen`). -/
structure PRV where
  stat : ℕ → ℚ
  weight : ℕ → ℚ

/-- The all-zero result (stands for entries never looked up). -/
def PRV.zero : PRV := ⟨fun _ => 0, fun _ => 0⟩

/-- A finalized correlation object as `estimate_multi_cov` consumes it:
`self.results` (a dict keyed by patch pairs, kept in insertion order),
`_getStatLen()`, `_var_num` (the correlation-type-specific shot-noise variance
numerator set by the derived classes), the finalized combined `_getWeight()`
vector used by `_cov_shot`, and `num_bootstrap`. -/
structure Corr where
  results : List ((ℕ × ℕ) × PRV)
  statLen : ℕ
  varNum : ℚ
  totWeight : ℕ → ℚ
  numBootstrap : ℕ

/-- Source expression `list(corr.results.keys())`. -/
def keysOf (c : Corr) : List (ℕ × ℕ) := c.results.map Prod.fst

/-- Python dict lookup (first matching key of the association list). -/
def lookupKey {V : Type} (p : ℕ × ℕ) : List ((ℕ × ℕ) × V) → Option V
  | [] => none
  | e :: tl => if e.1 = p then some e.2 else lookupKey p tl

/-- Source expression `corr.results[(j,k)]`; total with a zero default (the
estimators only look up keys that are present). -/
def resLookup (c : Corr) (p : ℕ × ℕ) : PRV := (lookupKey p c.results).getD PRV.zero

/-- One row of `vnum` in `_make_cov_design_matrix` (line 816):
`np.sum([corr.results[(j,k)]._getStat() for j,k in pairs], axis=0)`. -/
def vnumRow (c : Corr) (pairs : List (ℕ × ℕ)) (t : ℕ) : ℚ :=
  (pairs.map (fun p => (resLookup c p).stat t)).sum

/-- One row of `vdenom` in `_make_cov_design_matrix` (line 817). -/
def vdenomRow (c : Corr) (pairs : List (ℕ × ℕ)) (t : ℕ) : ℚ :=
  (pairs.map (fun p => (resLookup c p).weight t)).sum

/-- The exceptions of the covariance layer: the "requires processing using
patches" ValueError, the `set(range(npatch))` assertion, the two patch-count
mismatch errors of `_get_patch_nums`, and the invalid-method ValueError of
`estimate_multi_cov`.  `emptyCorrs` models the crash of `corrs[0]` on an empty
input list. -/
inductive CovError
  | patchesRequired
  | patchRangeAssert
  | mismatchedPatches
  | inconsistentCorrs
  | invalidMethod (m : String)
  | emptyCorrs
deriving DecidableEq

/-- Source expression `len(set([p[0] for p in pairs]))` for a correlation's stored keys. -/
def nDistinct1 (c : Corr) : ℕ := ((keysOf c).map Prod.fst).dedup.length

/-- Source expression `len(set([p[1] for p in pairs]))`. -/
def nDistinct2 (c : Corr) : ℕ := ((keysOf c).map Prod.snd).dedup.length

/-- The output of `_get_patch_nums`: `npatch` and the `(npatch1, npatch2)`
pair of each correlation (the per-corr key lists are recomputed from the
correlation objects where needed). -/
structure PatchNums where
  npatch : ℕ
  ns : List (ℕ × ℕ)
deriving DecidableEq

/-- Lines 836-844 of `_get_patch_nums`: each further correlation must have
`n1, n2 ∈ {1, npatch}`. -/
def checkRest (npatch : ℕ) : List Corr → Except CovError (List (ℕ × ℕ))
  | [] => .ok []
  | c :: cs =>
    let n1 := nDistinct1 c
    let n2 := nDistinct2 c
    if (n1 = 1 ∨ n1 = npatch) ∧ (n2 = 1 ∨ n2 = npatch) then
      (checkRest npatch cs).map (fun l => (n1, n2) :: l)
    else .error .inconsistentCorrs

/-- Source function `_get_patch_nums(corrs)` (lines 820-845): empty-results check,
the contiguous-range assertions, the axis-mismatch check, `npatch = max(n1, n2)`,
then the per-corr consistency check. -/
def getPatchNums : List Corr → Except CovError PatchNums
  | [] => .error .emptyCorrs
  | c :: cs =>
    if keysOf c = [] then .error .patchesRequired
    else
      let n1 := nDistinct1 c
      let n2 := nDistinct2 c
      if ((keysOf c).map Prod.fst).toFinset = Finset.range n1
          ∧ ((keysOf c).map Prod.snd).toFinset = Finset.range n2 then
        if n1 ≠ n2 ∧ n1 ≠ 1 ∧ n2 ≠ 1 then .error .mismatchedPatches
        else (checkRest (max n1 n2) cs).map (fun l => ⟨max n1 n2, (n1, n2) :: l⟩)
      else .error .patchRangeAssert

/-- Model of `np.hstack` over per-correlation row vectors (each with its length). -/
def hstackRows : List (ℕ × (ℕ → ℚ)) → ℕ → ℚ
  | [], _ => 0
  | (len, f) :: rest, t => if t < len then f t else hstackRows rest (t - len)

/-- The jackknife sample selection (lines 859-866): sample `i` keeps every
stored pair `(j,k)` with `j != i and k != i`; a singleton axis iterates the
other axis holding the singleton index at 0. -/
def jackPairs (n1 n2 : ℕ) (pairs : List (ℕ × ℕ)) (i : ℕ) : List (ℕ × ℕ) :=
  if n2 = 1 then ((List.range n1).filter (fun j => j ≠ i)).map (fun j => (j, 0))
  else if n1 = 1 then ((List.range n2).filter (fun j => j ≠ i)).map (fun j => (0, j))
  else pairs.filter (fun p => p.1 ≠ i ∧ p.2 ≠ i)

/-- The sample/bootstrap per-patch selection (lines 892-904 and 937-945):
sample `i` keeps stored pairs whose first index is `i` (line 904). -/
def samplePatchPairs (n1 n2 : ℕ) (pairs : List (ℕ × ℕ)) (i : ℕ) : List (ℕ × ℕ) :=
  if n2 = 1 then [(i, 0)]
  else if n1 = 1 then [(0, i)]
  else pairs.filter (fun p => p.1 = i)

/-- Model of `np.hstack(vnum)` evaluated at one global vector position, with each
correlation contributing a segment of length `statLen`; the selection rule may
depend on the correlation's position in the list (bootstrap2 redraws per corr). -/
def catNum (corrs : List Corr) (ns : List (ℕ × ℕ))
    (sel : ℕ → Corr → ℕ × ℕ → List (ℕ × ℕ)) : ℕ → ℚ :=
  hstackRows (((corrs.zip ns).enum).map
    (fun ic => (ic.2.1.statLen, vnumRow ic.2.1 (sel ic.1 ic.2.1 ic.2.2))))

/-- Model of `np.hstack(vdenom)` evaluated at one global vector position. -/
def catDen (corrs : List Corr) (ns : List (ℕ × ℕ))
    (sel : ℕ → Corr → ℕ × ℕ → List (ℕ × ℕ)) : ℕ → ℚ :=
  hstackRows (((corrs.zip ns).enum).map
    (fun ic => (ic.2.1.statLen, vdenomRow ic.2.1 (sel ic.1 ic.2.1 ic.2.2))))

/-- Source expression `np.mean(v, axis=0)` over the sample rows. -/
def rowMean (v : ℕ → ℕ → ℚ) (nrows t : ℕ) : ℚ :=
  (Finset.sum (Finset.range nrows) (fun i => v i t)) / (nrows : ℚ)

/-- Source expression `coef * (v - vmean).T.dot(v - vmean)`: the shared final
contraction of jackknife/bootstrap/bootstrap2 (lines 871-874, 961-963, 1004-1007). -/
def centeredGram (coef : ℚ) (v : ℕ → ℕ → ℚ) (nrows a b : ℕ) : ℚ :=
  coef * Finset.sum (Finset.range nrows)
    (fun i => (v i a - rowMean v nrows a) * (v i b - rowMean v nrows b))

/-- The jackknife per-sample estimate `v_i = hstack(vnum)/hstack(vdenom)`. -/
def jackV (corrs : List Corr) (pn : PatchNums) (i t : ℕ) : ℚ :=
  catNum corrs pn.ns (fun _ c nn => jackPairs nn.1 nn.2 (keysOf c) i) t
    / catDen corrs pn.ns (fun _ c nn => jackPairs nn.1 nn.2 (keysOf c) i) t

/-- Source function `_cov_jackknife` (lines 847-875):
`C = (1 - 1/npatch) Σ_i (v_i-v̄)(v_i-v̄)^T`. -/
def covJackknife (corrs : List Corr) : Except CovError (ℕ → ℕ → ℚ) :=
  (getPatchNums corrs).map (fun pn =>
    centeredGram (1 - 1 / (pn.npatch : ℚ)) (jackV corrs pn) pn.npatch)

/-- The sample-method per-patch estimate `v_i`. -/
def sampleV (corrs : List Corr) (pn : PatchNums) (i t : ℕ) : ℚ :=
  catNum corrs pn.ns (fun _ c nn => samplePatchPairs nn.1 nn.2 (keysOf c) i) t
    / catDen corrs pn.ns (fun _ c nn => samplePatchPairs nn.1 nn.2 (keysOf c) i) t

/-- The total flattened statistic length over the correlation list. -/
def totalLen (corrs : List Corr) : ℕ := (corrs.map (fun c => c.statLen)).sum

/-- Source expression `w = np.sum(vdenom, axis=1)` (line 912): patch `i`'s total weight. -/
def sampleW (corrs : List Corr) (pn : PatchNums) (i : ℕ) : ℚ :=
  Finset.sum (Finset.range (totalLen corrs))
    (fun t => catDen corrs pn.ns (fun _ c nn => samplePatchPairs nn.1 nn.2 (keysOf c) i) t)

/-- Source function `_cov_sample` (lines 877-918):
`C = 1/(npatch-1) Σ_i (w_i/W) (v_i-v̄)(v_i-v̄)^T`. -/
def covSample (corrs : List Corr) : Except CovError (ℕ → ℕ → ℚ) :=
  (getPatchNums corrs).map (fun pn => fun a b =>
    1 / ((pn.npatch : ℚ) - 1) * Finset.sum (Finset.range pn.npatch)
      (fun i => sampleW corrs pn i / Finset.sum (Finset.range pn.npatch) (sampleW corrs pn)
        * ((sampleV corrs pn i a - rowMean (sampleV corrs pn) pn.npatch a)
          * (sampleV corrs pn i b - rowMean (sampleV corrs pn) pn.npatch b))))

/-- Source expression `nboot = np.max([c.num_bootstrap for c in corrs])` (lines 956 and 978). -/
def nbootOf (corrs : List Corr) : ℕ := (corrs.map (fun c => c.numBootstrap)).foldr max 0

/-- Bootstrap resample `k` (lines 958-960): `indx = rand k` drawn with
replacement; `v_k = Σ_{i∈indx} vnum_i / Σ_{i∈indx} vdenom_i`. -/
def bootV (corrs : List Corr) (pn : PatchNums) (rand : ℕ → List ℕ) (k t : ℕ) : ℚ :=
  (((rand k).map (fun i =>
      catNum corrs pn.ns (fun _ c nn => samplePatchPairs nn.1 nn.2 (keysOf c) i) t)).sum)
    / (((rand k).map (fun i =>
      catDen corrs pn.ns (fun _ c nn => samplePatchPairs nn.1 nn.2 (keysOf c) i) t)).sum)

/-- Source function `_cov_bootstrap` (lines 920-964), with the random draws passed
in as `rand : ℕ → List ℕ` (`rand k` models `np.random.randint(npatch, size=npatch)`
for resampling `k`). -/
def covBootstrap (corrs : List Corr) (rand : ℕ → List ℕ) : Except CovError (ℕ → ℕ → ℚ) :=
  (getPatchNums corrs).map (fun pn =>
    centeredGram (1 / ((nbootOf corrs : ℚ) - 1)) (bootV corrs pn rand) (nbootOf corrs))

/-- Lines 992-998 of `_cov_bootstrap2` (symmetric case): every drawn index's
auto pair, once per repetition, followed by
`[ (i,j) for i in indx for j in indx if i != j and (i,j) in pairs ]`. -/
def boot2SamplePairs (pairs : List (ℕ × ℕ)) (indx : List ℕ) : List (ℕ × ℕ) :=
  (indx.map (fun i => (i, i)))
    ++ indx.flatMap (fun i =>
        (indx.filter (fun j => i ≠ j ∧ (i, j) ∈ pairs)).map (fun j => (i, j)))

/-- Lines 985-998: the bootstrap2 selection, with the singleton-axis special
cases of lines 985-988. -/
def boot2PairsFor (n1 n2 : ℕ) (pairs : List (ℕ × ℕ)) (indx : List ℕ) : List (ℕ × ℕ) :=
  if n2 = 1 then indx.map (fun i => (i, 0))
  else if n1 = 1 then indx.map (fun i => (0, i))
  else boot2SamplePairs pairs indx

/-- The bootstrap2 per-resample estimate: note each correlation in the list
draws its own `indx` (the source draws inside the per-corr loop), hence the
draw source takes the correlation's index as a first argument. -/
def boot2V (corrs : List Corr) (pn : PatchNums) (rand2 : ℕ → ℕ → List ℕ) (k t : ℕ) : ℚ :=
  catNum corrs pn.ns (fun idx c nn => boot2PairsFor nn.1 nn.2 (keysOf c) (rand2 idx k)) t
    / catDen corrs pn.ns (fun idx c nn => boot2PairsFor nn.1 nn.2 (keysOf c) (rand2 idx k)) t

/-- Source function `_cov_bootstrap2` (lines 966-1008). -/
def covBootstrap2 (corrs : List Corr) (rand2 : ℕ → ℕ → List ℕ) :
    Except CovError (ℕ → ℕ → ℚ) :=
  (getPatchNums corrs).map (fun pn =>
    centeredGram (1 / ((nbootOf corrs : ℚ) - 1)) (boot2V corrs pn rand2) (nbootOf corrs))

/-- The per-correlation vector of `_cov_shot` (lines 803-807): zeros, with
`_var_num / w` where the finalized weight is nonzero. -/
def shotVList (c : Corr) : List ℚ :=
  (List.range c.statLen).map
    (fun t => if c.totWeight t ≠ 0 then c.varNum / c.totWeight t else 0)

/-- Source function `_cov_shot` (lines 800-808): `np.diag(np.concatenate(vlist))`. -/
def covShot (corrs : List Corr) : ℕ → ℕ → ℚ :=
  fun a b => if a = b then ((corrs.map shotVList).flatten).getD a 0 else 0

/-- Source function `estimate_multi_cov(corrs, method)` (lines 787-798): dispatch
on the method string, raising ValueError for an unknown method. -/
def estimateMultiCov (corrs : List Corr) (rand : ℕ → List ℕ) (rand2 : ℕ → ℕ → List ℕ)
    (method : String) : Except CovError (ℕ → ℕ → ℚ) :=
  if method = "shot" then .ok (covShot corrs)
  else if method = "jackknife" then covJackknife corrs
  else if method = "bootstrap" then covBootstrap corrs rand
  else if method = "bootstrap2" then covBootstrap2 corrs rand2
  else if method = "sample" then covSample corrs
  else .error (.invalidMethod method)

/-- The claim-side jackknife numerator for sample `i`: the sum of `stat[t]`
over all STORED entries `(j,k)` with `j != i` and `k != i`. -/
def jackSpecNum (c : Corr) (i t : ℕ) : ℚ :=
  ((c.results.filter (fun e => e.1.1 ≠ i ∧ e.1.2 ≠ i)).map (fun e => e.2.stat t)).sum

/-- The claim-side jackknife denominator for sample `i`. -/
def jackSpecDen (c : Corr) (i t : ℕ) : ℚ :=
  ((c.results.filter (fun e => e.1.1 ≠ i ∧ e.1.2 ≠ i)).map (fun e => e.2.weight t)).sum

/-- The claim-side jackknife sample estimate: the elementwise ratio. -/
def jackSpecV (c : Corr) (i t : ℕ) : ℚ := jackSpecNum c i t / jackSpecDen c i t

/-- The claim-side jackknife numerator for sample `i` when the SECOND patch
axis is a singleton (lines 861-862): the sample excludes the keys touching
patch `i` of the first axis, i.e. sums the stored entries `(j,0)` with
`j != i`. -/
def jackSpecRightNum (c : Corr) (i t : ℕ) : ℚ :=
  ((c.results.filter (fun e => e.1.1 ≠ i)).map (fun e => e.2.stat t)).sum

/-- The claim-side jackknife denominator for sample `i` when the second patch
axis is a singleton. -/
def jackSpecRightDen (c : Corr) (i t : ℕ) : ℚ :=
  ((c.results.filter (fun e => e.1.1 ≠ i)).map (fun e => e.2.weight t)).sum

/-- The claim-side jackknife sample estimate when the second patch axis is a
singleton: the elementwise ratio. -/
def jackSpecRightV (c : Corr) (i t : ℕ) : ℚ :=
  jackSpecRightNum c i t / jackSpecRightDen c i t

/-- The claim-side jackknife numerator for sample `i` when the FIRST patch
axis is a singleton (lines 863-864): the sample sums the stored entries
`(0,j)` with `j != i`. -/
def jackSpecLeftNum (c : Corr) (i t : ℕ) : ℚ :=
  ((c.results.filter (fun e => e.1.2 ≠ i)).map (fun e => e.2.stat t)).sum

/-- The claim-side jackknife denominator for sample `i` when the first patch
axis is a singleton. -/
def jackSpecLeftDen (c : Corr) (i t : ℕ) : ℚ :=
  ((c.results.filter (fun e => e.1.2 ≠ i)).map (fun e => e.2.weight t)).sum

/-- The claim-side jackknife sample estimate when the first patch axis is a
singleton: the elementwise ratio. -/
def jackSpecLeftV (c : Corr) (i t : ℕ) : ℚ :=
  jackSpecLeftNum c i t / jackSpecLeftDen c i t

/-- The stored pair set of the C3 counterexample: the full 3x3 grid of patch
keys (every pair evaluated and recorded). -/
def boot2CexPairs : List (ℕ × ℕ) :=
  [(0, 0), (0, 1), (0, 2), (1, 0), (1, 1), (1, 2), (2, 0), (2, 1), (2, 2)]

/-- The claim-side bootstrap2 per-draw statistic: the elementwise ratio of the
summed stat over the summed weight over the resample's pair multiset. -/
def boot2RatioV (c : Corr) (rand2 : ℕ → ℕ → List ℕ) (k t : ℕ) : ℚ :=
  ((boot2SamplePairs (keysOf c) (rand2 0 k)).map (fun p => (resLookup c p).stat t)).sum
    / ((boot2SamplePairs (keysOf c) (rand2 0 k)).map (fun p => (resLookup c p).weight t)).sum

/-- The per-patch-pair output of the external `process_auto`/`process_cross`
computation as `_process_all_auto`/`_process_all_cross` consume it: the
`npairs` array (whose total decides recording), the accumulated statistic and
weight arrays, and the `tot` pair-count side channel.  Modelled from the spec:
`tot` and the `_add_tot` hook belong to `NNCorrelation`, which is not part of
this file; the spec describes `addTotal` as the correlation-type-specific
"total count" side channel incremented even for skipped results. -/
structure RawResult where
  npairs : ℕ → ℚ
  weight : ℕ → ℚ
  stat : ℕ → ℚ
  tot : ℚ

/-- Source expression `np.sum(temp.npairs)` (the `npairs` array has `vlen` entries). -/
def sumNpairs (vlen : ℕ) (r : RawResult) : ℚ :=
  Finset.sum (Finset.range vlen) (fun t => r.npairs t)

/-- The accumulation state of the owning correlation object: `self.results`
(dict in insertion order), the `+=`-accumulated arrays of `self`, the `tot`
tally, and the list of results handed to the `_add_tot` hook. -/
structure AccState where
  results : List ((ℕ × ℕ) × RawResult)
  totStat : ℕ → ℚ
  totWeight : ℕ → ℚ
  totNpairs : ℕ → ℚ
  tot : ℚ
  skipped : List ((ℕ × ℕ) × RawResult)

/-- The cleared state the accumulation run starts from. -/
def AccState.empty : AccState := ⟨[], fun _ => 0, fun _ => 0, fun _ => 0, 0, []⟩

/-- Source statements `self.results[(i,j)] = temp.copy(); self += temp` (lines
469-470, 478-479, 505-506): record the entry and merge every channel into the totals. -/
def storeResult (st : AccState) (k : ℕ × ℕ) (r : RawResult) : AccState :=
  { st with
    results := st.results ++ [(k, r)]
    totStat := fun t => st.totStat t + r.stat t
    totWeight := fun t => st.totWeight t + r.weight t
    totNpairs := fun t => st.totNpairs t + r.npairs t
    tot := st.tot + r.tot }

/-- Source statement `self._add_tot(temp)` (lines 482, 509).  Modelled from the
spec: the hook adds only the `tot` side channel (a no-op in the base class);
the skipped result is recorded so the hook's invocations are observable. -/
def addTot (st : AccState) (k : ℕ × ℕ) (r : RawResult) : AccState :=
  { st with
    tot := st.tot + r.tot
    skipped := st.skipped ++ [(k, r)] }

/-- The inner loop of `_process_all_auto` (lines 471-482): for `j` with
`i < j`, record the cross result when `np.sum(temp.npairs) > 0`, else invoke
the `_add_tot` hook. -/
def autoInner (vlen : ℕ) (f : ℕ → ℕ → RawResult) (i : ℕ) :
    List ℕ → AccState → AccState
  | [], st => st
  | j :: js, st =>
    autoInner vlen f i js
      (if i < j then
        (if 0 < sumNpairs vlen (f i j) then storeResult st (i, j) (f i j)
         else addTot st (i, j) (f i j))
       else st)

/-- The outer loop of `_process_all_auto` (lines 464-482): each patch's auto
result is always recorded, then the inner cross loop runs. -/
def autoOuter (vlen : ℕ) (f : ℕ → ℕ → RawResult) (n : ℕ) :
    List ℕ → AccState → AccState
  | [], st => st
  | i :: rest, st =>
    autoOuter vlen f n rest (autoInner vlen f i (List.range n) (storeResult st (i, i) (f i i)))

/-- Source method `_process_all_auto` (lines 458-482) in the patched
(`len(cat1) > 1`) branch, with the patch labels equal to the enumeration
indices `0..n-1` and the external pair counting abstracted as `f i j`. -/
def processAllAuto (n vlen : ℕ) (f : ℕ → ℕ → RawResult) : AccState :=
  autoOuter vlen f n (List.range n) AccState.empty

/-- The inner loop of `_process_all_cross` (lines 499-509): record when
`i == j or np.sum(temp.npairs) > 0`, else invoke the hook. -/
def crossInner (vlen : ℕ) (f : ℕ → ℕ → RawResult) (i : ℕ) :
    List ℕ → AccState → AccState
  | [], st => st
  | j :: js, st =>
    crossInner vlen f i js
      (if i = j ∨ 0 < sumNpairs vlen (f i j) then storeResult st (i, j) (f i j)
       else addTot st (i, j) (f i j))

/-- The outer loop of `_process_all_cross` (lines 497-509). -/
def crossOuter (vlen : ℕ) (f : ℕ → ℕ → RawResult) (n2 : ℕ) :
    List ℕ → AccState → AccState
  | [], st => st
  | i :: rest, st => crossOuter vlen f n2 rest (crossInner vlen f i (List.range n2) st)

/-- Source method `_process_all_cross` (lines 484-509) in the patched branch
(`pairwise` false), with `n1 × n2` patch pairs and the pair counting abstracted as `f`. -/
def processAllCross (n1 n2 vlen : ℕ) (f : ℕ → ℕ → RawResult) : AccState :=
  crossOuter vlen f n2 (List.range n1) AccState.empty

/-- The invariant tying the `+=`-accumulated totals to the store: every
accumulated channel equals the merge of the stored entries, and the `tot`
tally equals the stored entries' contribution plus the `_add_tot`
contributions of the skipped (unrecorded) results. -/
def Consistent (st : AccState) : Prop :=
  (∀ t, st.totStat t = (st.results.map (fun e => e.2.stat t)).sum)
  ∧ (∀ t, st.totWeight t = (st.results.map (fun e => e.2.weight t)).sum)
  ∧ (∀ t, st.totNpairs t = (st.results.map (fun e => e.2.npairs t)).sum)
  ∧ st.tot = (st.results.map (fun e => e.2.tot)).sum
      + (st.skipped.map (fun e => e.2.tot)).sum

/-- A computed result whose pair count is positive but whose weight vector is
identically zero (e.g. every pair had zero product weight). -/
def weightlessResult : RawResult := ⟨fun _ => 1, fun _ => 0, fun _ => 0, 0⟩

/-- The all-zero computed result. -/
def zeroRawResult : RawResult := ⟨fun _ => 0, fun _ => 0, fun _ => 0, 0⟩

/-- The external pair counting of the C7 counterexample: only the cross pair
(0,1) has any pairs, and those pairs carry zero weight. -/
def fCex : ℕ → ℕ → RawResult :=
  fun i j => if i = 0 ∧ j = 1 then weightlessResult else zeroRawResult

/-- A 2x2 patch store with unit statistics, used by the covariance witnesses. -/
def patchCorr2 : Corr :=
  ⟨[((0, 0), ⟨fun _ => 1, fun _ => 1⟩), ((0, 1), ⟨fun _ => 1, fun _ => 1⟩),
    ((1, 0), ⟨fun _ => 1, fun _ => 1⟩), ((1, 1), ⟨fun _ => 1, fun _ => 1⟩)],
    1, 0, fun _ => 0, 2⟩

/-- A 2x1 patch store (singleton second axis) with unit statistics, used by
the jackknife witness for the singleton-axis clause. -/
def patchCorr21 : Corr :=
  ⟨[((0, 0), ⟨fun _ => 1, fun _ => 1⟩), ((1, 0), ⟨fun _ => 1, fun _ => 1⟩)],
    1, 0, fun _ => 0, 2⟩

/-- C1: For a valid Log binning specification giving exactly 3 of
{nbins, bin_size, min_sep, max_sep}, the resolution derives the missing
parameter by the stated rule (nbins by ceiling with bin_size recomputed;
bin_size = log(max/min)/nbins; max_sep = min_sep*exp(nbins*bin_size);
min_sep = max_sep*exp(-(nbins*bin_size))); bin centers are evenly spaced in
log(sep) starting at log(min_sep) + bin_size/2 with edges equal to the
centers divided/multiplied by exp(bin_size/2); and min_sep=1, max_sep=10,
nbins=5 gives bin_size = log(10)/5 and first center exp(log 1 + bin_size/2). -/
theorem log_binning_resolution (m M bs : ℝ) (n : ℤ)
    (hm : 0 < m) (hmM : m < M) (hbs : 0 < bs) (hn : 0 < n) :
    (∃ s : BinSpecR ℝ, resolveBinSpec Real.log Real.exp
          (⟨.Log, some m, some M, some bs, none, none⟩ : BinConfig ℝ) = .ok (some s)
        ∧ s.nbins = Int.ceil (Real.log (M / m) / bs)
        ∧ s.bin_size = Real.log (M / m) / (s.nbins : ℝ))
    ∧ (∃ s : BinSpecR ℝ, resolveBinSpec Real.log Real.exp
          (⟨.Log, some m, some M, none, some n, none⟩ : BinConfig ℝ) = .ok (some s)
        ∧ s.bin_size = Real.log (M / m) / (n : ℝ))
    ∧ (∃ s : BinSpecR ℝ, resolveBinSpec Real.log Real.exp
          (⟨.Log, some m, none, some bs, some n, none⟩ : BinConfig ℝ) = .ok (some s)
        ∧ s.max_sep = m * Real.exp ((n : ℝ) * bs))
    ∧ (∃ s : BinSpecR ℝ, resolveBinSpec Real.log Real.exp
          (⟨.Log, none, some M, some bs, some n, none⟩ : BinConfig ℝ) = .ok (some s)
        ∧ s.min_sep = M * Real.exp (-((n : ℝ) * bs)))
    ∧ (∀ (s : BinSpecR ℝ) (k : ℕ),
        logLogr Real.log s k = Real.log s.min_sep + ((k : ℝ) + 1 / 2) * s.bin_size
        ∧ logLogr Real.log s (k + 1) - logLogr Real.log s k = s.bin_size
        ∧ logLeftEdge Real.log Real.exp s k
            = logRnom Real.log Real.exp s k / Real.exp (s.bin_size / 2)
        ∧ logRightEdge Real.log Real.exp s k
            = logRnom Real.log Real.exp s k * Real.exp (s.bin_size / 2))
    ∧ (∃ s : BinSpecR ℝ, resolveBinSpec Real.log Real.exp
          (⟨.Log, some 1, some 10, none, some 5, none⟩ : BinConfig ℝ) = .ok (some s)
        ∧ s.bin_size = Real.log 10 / 5
        ∧ logRnom Real.log Real.exp s 0 = Real.exp (Real.log 1 + s.bin_size / 2)) := by
  refine ⟨?_, ?_, ?_, ?_, ?_, ?_⟩
  · have e : resolveBinSpec Real.log Real.exp
        (⟨.Log, some m, some M, some bs, none, none⟩ : BinConfig ℝ)
        = .ok (deriveSpec Real.log Real.exp none ⟨.Log, some m, some M, some bs, none⟩) := by
      simp [resolveBinSpec, validateParams, hmM.not_le, Except.map]
    exact ⟨_, e, rfl, rfl⟩
  · have e : resolveBinSpec Real.log Real.exp
        (⟨.Log, some m, some M, none, some n, none⟩ : BinConfig ℝ)
        = .ok (deriveSpec Real.log Real.exp none ⟨.Log, some m, some M, none, some n⟩) := by
      simp [resolveBinSpec, validateParams, hmM.not_le, Except.map]
    exact ⟨_, e, rfl⟩
  · have e : resolveBinSpec Real.log Real.exp
        (⟨.Log, some m, none, some bs, some n, none⟩ : BinConfig ℝ)
        = .ok (deriveSpec Real.log Real.exp none ⟨.Log, some m, none, some bs, some n⟩) := by
      simp [resolveBinSpec, validateParams, Except.map]
    exact ⟨_, e, mul_comm _ _⟩
  · have e : resolveBinSpec Real.log Real.exp
        (⟨.Log, none, some M, some bs, some n, none⟩ : BinConfig ℝ)
        = .ok (deriveSpec Real.log Real.exp none ⟨.Log, none, some M, some bs, some n⟩) := by
      simp [resolveBinSpec, validateParams, Except.map]
    exact ⟨_, e, rfl⟩
  · intro s k
    refine ⟨?_, ?_, rfl, rfl⟩
    · simp only [logLogr]; ring
    · simp only [logLogr]; push_cast; ring
  · have e : resolveBinSpec Real.log Real.exp
        (⟨.Log, some 1, some 10, none, some 5, none⟩ : BinConfig ℝ)
        = .ok (deriveSpec Real.log Real.exp none ⟨.Log, some 1, some 10, none, some 5⟩) := by
      simp [resolveBinSpec, validateParams, Except.map, show ¬(10:ℝ) ≤ 1 by norm_num]
    refine ⟨_, e, ?_, ?_⟩
    · norm_num [deriveSpec, finishSlop]
    · norm_num [deriveSpec, finishSlop, logRnom, logLogr]

/-- Witness for `log_binning_resolution` at min_sep=1, max_sep=10, bin_size=1/2,
nbins=5: all hypotheses hold and the scenario conjunct follows. -/
theorem log_binning_resolution_witness :
    ((0 : ℝ) < 1 ∧ (1 : ℝ) < 10 ∧ (0 : ℝ) < 1 / 2 ∧ (0 : ℤ) < 5)
    ∧ (∃ s : BinSpecR ℝ, resolveBinSpec Real.log Real.exp
          (⟨.Log, some 1, some 10, none, some 5, none⟩ : BinConfig ℝ) = .ok (some s)
        ∧ s.bin_size = Real.log 10 / 5
        ∧ logRnom Real.log Real.exp s 0 = Real.exp (Real.log 1 + s.bin_size / 2)) :=
  ⟨⟨by norm_num, by norm_num, by norm_num, by decide⟩,
    (log_binning_resolution 1 10 (1 / 2) 5 (by norm_num) (by norm_num) (by norm_num)
      (by decide)).2.2.2.2.2⟩

/-- C5: when the caller does not supply `bin_slop`, the resolved `bin_slop` is
`min(0.1/max_log_bin_size, 1.0)` with `max_log_bin_size = bin_size` for Log and
`bin_size/(min_sep + bin_size/2)` for Linear/TwoD; `b = min_log_bin_size * bin_slop`
with `min_log_bin_size = bin_size` for Log and `bin_size/max_sep` for Linear/TwoD;
a caller-supplied `bin_slop` above the bound only sets the (non-fatal) warning
flag and the resolution proceeds with the caller's value. -/
theorem bin_slop_resolution (m M bs : ℝ) (n : ℤ)
    (hm : 0 < m) (hmM : m < M) (hn : 0 < n) (hbs : 0 < bs) :
    (∃ s : BinSpecR ℝ, resolveBinSpec Real.log Real.exp
          (⟨.Log, some m, some M, none, some n, none⟩ : BinConfig ℝ) = .ok (some s)
        ∧ s.bin_slop = min (1 / 10 / s.bin_size) 1
        ∧ s.b = s.bin_size * s.bin_slop)
    ∧ (∃ s : BinSpecR ℝ, resolveBinSpec Real.log Real.exp
          (⟨.Linear, some m, some M, none, some n, none⟩ : BinConfig ℝ) = .ok (some s)
        ∧ s.bin_slop = min (1 / 10 / (s.bin_size / (s.min_sep + s.bin_size / 2))) 1
        ∧ s.b = s.bin_size / s.max_sep * s.bin_slop)
    ∧ (∃ s : BinSpecR ℝ, resolveBinSpec Real.log Real.exp
          (⟨.TwoD, none, some M, some bs, none, none⟩ : BinConfig ℝ) = .ok (some s)
        ∧ s.min_sep = 0
        ∧ s.bin_slop = min (1 / 10 / (s.bin_size / (s.min_sep + s.bin_size / 2))) 1
        ∧ s.b = s.bin_size / s.max_sep * s.bin_slop)
    ∧ (∀ t : ℝ, 0 ≤ t →
        ∃ s : BinSpecR ℝ, resolveBinSpec Real.log Real.exp
          (⟨.Log, some m, some M, none, some n, some t⟩ : BinConfig ℝ) = .ok (some s)
        ∧ s.bin_slop = t ∧ s.b = s.bin_size * t
        ∧ (s.slop_warn = true ↔ 1 / 10 / s.bin_size + 1 / 10000 < t))
    ∧ (∀ t : ℝ, 0 ≤ t →
        ∃ s : BinSpecR ℝ, resolveBinSpec Real.log Real.exp
          (⟨.Linear, some m, some M, none, some n, some t⟩ : BinConfig ℝ) = .ok (some s)
        ∧ s.bin_slop = t ∧ s.b = s.bin_size / s.max_sep * t
        ∧ (s.slop_warn = true
            ↔ 1 / 10 / (s.bin_size / (s.min_sep + s.bin_size / 2)) + 1 / 10000 < t)) := by
  have hneg : (-1 : ℝ) < 0 := by norm_num
  refine ⟨?_, ?_, ?_, ?_, ?_⟩
  · have e : resolveBinSpec Real.log Real.exp
        (⟨.Log, some m, some M, none, some n, none⟩ : BinConfig ℝ)
        = .ok (deriveSpec Real.log Real.exp none ⟨.Log, some m, some M, none, some n⟩) := by
      simp [resolveBinSpec, validateParams, hmM.not_le, Except.map]
    exact ⟨_, e, by simp [deriveSpec, finishSlop, hneg], by simp [deriveSpec, finishSlop]⟩
  · have e : resolveBinSpec Real.log Real.exp
        (⟨.Linear, some m, some M, none, some n, none⟩ : BinConfig ℝ)
        = .ok (deriveSpec Real.log Real.exp none ⟨.Linear, some m, some M, none, some n⟩) := by
      simp [resolveBinSpec, validateParams, hmM.not_le, Except.map]
    exact ⟨_, e, by simp [deriveSpec, finishSlop, hneg], by simp [deriveSpec, finishSlop]⟩
  · have e : resolveBinSpec Real.log Real.exp
        (⟨.TwoD, none, some M, some bs, none, none⟩ : BinConfig ℝ)
        = .ok (deriveSpec Real.log Real.exp none ⟨.TwoD, some 0, some M, some bs, none⟩) := by
      simp [resolveBinSpec, validateParams, (hm.trans hmM).not_le, Except.map]
    exact ⟨_, e, rfl, by simp [deriveSpec, finishSlop, hneg], by simp [deriveSpec, finishSlop]⟩
  · intro t ht
    have e : resolveBinSpec Real.log Real.exp
        (⟨.Log, some m, some M, none, some n, some t⟩ : BinConfig ℝ)
        = .ok (deriveSpec Real.log Real.exp (some t) ⟨.Log, some m, some M, none, some n⟩) := by
      simp [resolveBinSpec, validateParams, hmM.not_le, Except.map]
    exact ⟨_, e, by simp [deriveSpec, finishSlop, ht.not_lt],
      by simp [deriveSpec, finishSlop, ht.not_lt],
      by simp [deriveSpec, finishSlop, ht.not_lt, decide_eq_true_eq, gt_iff_lt]⟩
  · intro t ht
    have e : resolveBinSpec Real.log Real.exp
        (⟨.Linear, some m, some M, none, some n, some t⟩ : BinConfig ℝ)
        = .ok (deriveSpec Real.log Real.exp (some t) ⟨.Linear, some m, some M, none, some n⟩) := by
      simp [resolveBinSpec, validateParams, hmM.not_le, Except.map]
    exact ⟨_, e, by simp [deriveSpec, finishSlop, ht.not_lt],
      by simp [deriveSpec, finishSlop, ht.not_lt],
      by simp [deriveSpec, finishSlop, ht.not_lt, decide_eq_true_eq, gt_iff_lt]⟩

/-- Witness for `bin_slop_resolution` at min_sep=1, max_sep=10, bin_size=1, nbins=5. -/
theorem bin_slop_resolution_witness :
    ((0 : ℝ) < 1 ∧ (1 : ℝ) < 10 ∧ (0 : ℤ) < 5 ∧ (0 : ℝ) < 1)
    ∧ (∃ s : BinSpecR ℝ, resolveBinSpec Real.log Real.exp
          (⟨.Log, some 1, some 10, none, some 5, none⟩ : BinConfig ℝ) = .ok (some s)
        ∧ s.bin_slop = min (1 / 10 / s.bin_size) 1
        ∧ s.b = s.bin_size * s.bin_slop) :=
  ⟨⟨by norm_num, by norm_num, by decide, by norm_num⟩,
    (bin_slop_resolution 1 10 1 5 (by norm_num) (by norm_num) (by decide) (by norm_num)).1⟩

/-- C6 counterexample: a TwoD specification that supplies `min_sep` (three of
the four parameters: min_sep=1, max_sep=10, bin_size=1) resolves WITHOUT a
configuration error, contrary to the claim that supplying `min_sep` for TwoD
(or more than 2 parameters for TwoD) fails at resolution time. -/
theorem twoD_min_sep_accepted :
    exceptOk (resolveBinSpec Real.log Real.exp
      (⟨.TwoD, some 1, some 10, some 1, none, none⟩ : BinConfig ℝ)) = true
    ∧ countSupplied (⟨.TwoD, some 1, some 10, some 1, none, none⟩ : BinConfig ℝ) = 3 := by
  constructor
  · simp [resolveBinSpec, validateParams, exceptOk, Except.map,
      show ¬(10:ℝ) ≤ 1 by norm_num]
  · simp [countSupplied]

/-- C6 (amended): for Log/Linear, supplying any number of the four binning
parameters other than exactly 3 is a configuration error, as is
`min_sep >= max_sep` whenever both are supplied (any bin_type); for TwoD,
supplying all three of {nbins, bin_size, max_sep}, or fewer than two of them,
is a configuration error, but a supplied `min_sep` is accepted (it does not
count against the limit and resolution succeeds, recording the given value). -/
theorem binning_param_errors (bt : BinType) (mo Mo bso : Option ℝ) (no : Option ℤ)
    (slopo : Option ℝ) (m M bs0 : ℝ) (n0 : ℤ) :
    (bt ≠ .TwoD → countSupplied (⟨bt, mo, Mo, bso, no, slopo⟩ : BinConfig ℝ) ≠ 3 →
      exceptOk (resolveBinSpec Real.log Real.exp ⟨bt, mo, Mo, bso, no, slopo⟩) = false)
    ∧ (M ≤ m →
      exceptOk (resolveBinSpec Real.log Real.exp ⟨bt, some m, some M, bso, no, slopo⟩) = false)
    ∧ (exceptOk (resolveBinSpec Real.log Real.exp
        ⟨.TwoD, mo, some M, some bs0, some n0, slopo⟩) = false)
    ∧ ((Mo = none ∨ bso = none) → (Mo = none ∨ no = none) → (bso = none ∨ no = none) →
      exceptOk (resolveBinSpec Real.log Real.exp ⟨.TwoD, mo, Mo, bso, no, slopo⟩) = false)
    ∧ (m < M →
      ∃ s : BinSpecR ℝ, resolveBinSpec Real.log Real.exp
          (⟨.TwoD, some m, some M, some bs0, none, slopo⟩ : BinConfig ℝ) = .ok (some s)
        ∧ s.min_sep = m) := by
  refine ⟨?_, ?_, ?_, ?_, ?_⟩
  · intro hbt hc
    rcases mo with _ | m0 <;> rcases Mo with _ | M0 <;> rcases bso with _ | b0 <;>
      rcases no with _ | nn0 <;>
      simp_all [countSupplied, resolveBinSpec, validateParams, exceptOk, Except.map]
  · intro hMm
    rcases bso with _ | b0 <;> rcases no with _ | nn0 <;> cases bt <;>
      simp_all [resolveBinSpec, validateParams, exceptOk, Except.map]
  · simp [resolveBinSpec, validateParams, exceptOk, Except.map]
  · intro h1 h2 h3
    rcases Mo with _ | M0 <;> rcases bso with _ | b0 <;> rcases no with _ | nn0 <;>
      simp_all [resolveBinSpec, validateParams, exceptOk, Except.map]
  · intro hmM
    have e : resolveBinSpec Real.log Real.exp
        (⟨.TwoD, some m, some M, some bs0, none, slopo⟩ : BinConfig ℝ)
        = .ok (deriveSpec Real.log Real.exp slopo ⟨.TwoD, some m, some M, some bs0, none⟩) := by
      simp [resolveBinSpec, validateParams, hmM.not_le, Except.map]
    exact ⟨_, e, rfl⟩

theorem estimateMultiCov_jack (corrs : List Corr) (rand : ℕ → List ℕ)
    (rand2 : ℕ → ℕ → List ℕ) :
    estimateMultiCov corrs rand rand2 "jackknife" = covJackknife corrs := rfl

theorem estimateMultiCov_sample (corrs : List Corr) (rand : ℕ → List ℕ)
    (rand2 : ℕ → ℕ → List ℕ) :
    estimateMultiCov corrs rand rand2 "sample" = covSample corrs := rfl

theorem estimateMultiCov_boot (corrs : List Corr) (rand : ℕ → List ℕ)
    (rand2 : ℕ → ℕ → List ℕ) :
    estimateMultiCov corrs rand rand2 "bootstrap" = covBootstrap corrs rand := rfl

theorem estimateMultiCov_boot2 (corrs : List Corr) (rand : ℕ → List ℕ)
    (rand2 : ℕ → ℕ → List ℕ) :
    estimateMultiCov corrs rand rand2 "bootstrap2" = covBootstrap2 corrs rand2 := rfl

theorem shotVList_length (c : Corr) : (shotVList c).length = c.statLen := by
  simp [shotVList]

theorem flatten_shot_length (l : List Corr) :
    ((l.map shotVList).flatten).length = totalLen l := by
  simp [List.length_flatten, totalLen, Function.comp_def, shotVList]

/-- C4: for every (nonempty) list of finalized correlation results the shot
covariance matrix is exactly diagonal — every off-diagonal entry is 0 for any
input — and the diagonal entry at global position `totalLen pre + k` (position
`k` of correlation `c`) is `_var_num / weight[k]` when `weight[k] != 0` and 0
when `weight[k] == 0`. -/
theorem shot_cov_diagonal (corrs : List Corr) (h : corrs ≠ []) :
    (∀ a b, a ≠ b → covShot corrs a b = 0)
    ∧ (∀ (pre post : List Corr) (c : Corr) (k : ℕ),
        corrs = pre ++ c :: post → k < c.statLen →
        covShot corrs (totalLen pre + k) (totalLen pre + k)
          = if c.totWeight k ≠ 0 then c.varNum / c.totWeight k else 0) := by
  constructor
  · intro a b hab
    simp [covShot, hab]
  · intro pre post c k hc hk
    subst hc
    have h1 : ((pre.map shotVList).flatten).length = totalLen pre :=
      flatten_shot_length pre
    have h2 : (((pre ++ c :: post).map shotVList).flatten)
        = (pre.map shotVList).flatten ++ (shotVList c ++ ((post.map shotVList).flatten)) := by
      simp
    rw [covShot, if_pos rfl, h2,
      List.getD_append_right _ _ _ _ (by rw [h1]; omega), h1]
    have h3 : totalLen pre + k - totalLen pre = k := by omega
    rw [h3, List.getD_append _ _ _ _ (by rw [shotVList_length]; exact hk)]
    simp only [shotVList, List.getD_eq_getElem?_getD, List.getElem?_map, List.getElem?_range, hk]
    simp

/-- Witness for `shot_cov_diagonal` on a single 2-bin correlation with weights
[2, 0] and `_var_num = 3`. -/
theorem shot_cov_diagonal_witness :
    (([⟨[], 2, 3, fun t => if t = 0 then 2 else 0, 0⟩] : List Corr) ≠ [])
    ∧ covShot [⟨[], 2, 3, fun t => if t = 0 then 2 else 0, 0⟩] 0 1 = 0 := by
  have h := shot_cov_diagonal [⟨[], 2, 3, fun t => if t = 0 then 2 else 0, 0⟩] (by simp)
  exact ⟨by simp, h.1 0 1 (by decide)⟩

/-- C10: `estimate_multi_cov` with a method string other than
shot/jackknife/sample/bootstrap/bootstrap2 raises `ValueError` naming the
method; the result is the same error for every correlation list and random
source, i.e. no result store is read or modified. -/
theorem invalid_method_error (m : String)
    (hm : m ≠ "shot" ∧ m ≠ "jackknife" ∧ m ≠ "bootstrap" ∧ m ≠ "bootstrap2" ∧ m ≠ "sample") :
    ∀ (corrs corrs2 : List Corr) (rand rand3 : ℕ → List ℕ) (rand2 rand4 : ℕ → ℕ → List ℕ),
      estimateMultiCov corrs rand rand2 m = .error (.invalidMethod m)
      ∧ estimateMultiCov corrs rand rand2 m = estimateMultiCov corrs2 rand3 rand4 m := by
  intro corrs corrs2 rand rand3 rand2 rand4
  obtain ⟨h1, h2, h3, h4, h5⟩ := hm
  constructor
  · simp [estimateMultiCov, h1, h2, h3, h4, h5]
  · simp [estimateMultiCov, h1, h2, h3, h4, h5]

/-- Witness for `invalid_method_error` at the method string 'median'. -/
theorem invalid_method_error_witness :
    (("median" : String) ≠ "shot" ∧ ("median" : String) ≠ "jackknife"
      ∧ ("median" : String) ≠ "bootstrap" ∧ ("median" : String) ≠ "bootstrap2"
      ∧ ("median" : String) ≠ "sample")
    ∧ estimateMultiCov [] (fun _ => []) (fun _ _ => []) ("median")
        = .error (.invalidMethod ("median")) :=
  ⟨by decide,
    (invalid_method_error ("median") (by decide) [] [] (fun _ => []) (fun _ => [])
      (fun _ _ => []) (fun _ _ => [])).1⟩

/-- C8: for each method in {jackknife, sample, bootstrap, bootstrap2},
requesting covariance estimation when no patch-keyed results exist raises the
fatal "patches required" error synchronously at covariance-estimation time
(the pure dispatch simply returns it; nothing retries); mismatched non-1 patch
counts between the two axes, or between multiple combined correlation results,
likewise produce a fatal error. -/
theorem patch_structure_errors (m : String) (c0 c1 : Corr) (rest : List Corr)
    (rand : ℕ → List ℕ) (rand2 : ℕ → ℕ → List ℕ)
    (hm : m = "jackknife" ∨ m = "sample" ∨ m = "bootstrap" ∨ m = "bootstrap2") :
    (c0.results = [] →
      estimateMultiCov (c0 :: rest) rand rand2 m = .error .patchesRequired)
    ∧ (keysOf c0 ≠ [] →
      ((keysOf c0).map Prod.fst).toFinset = Finset.range (nDistinct1 c0) →
      ((keysOf c0).map Prod.snd).toFinset = Finset.range (nDistinct2 c0) →
      nDistinct1 c0 ≠ nDistinct2 c0 → nDistinct1 c0 ≠ 1 → nDistinct2 c0 ≠ 1 →
      estimateMultiCov (c0 :: rest) rand rand2 m = .error .mismatchedPatches)
    ∧ (keysOf c0 ≠ [] →
      ((keysOf c0).map Prod.fst).toFinset = Finset.range (nDistinct1 c0) →
      ((keysOf c0).map Prod.snd).toFinset = Finset.range (nDistinct2 c0) →
      ¬(nDistinct1 c0 ≠ nDistinct2 c0 ∧ nDistinct1 c0 ≠ 1 ∧ nDistinct2 c0 ≠ 1) →
      ¬((nDistinct1 c1 = 1 ∨ nDistinct1 c1 = max (nDistinct1 c0) (nDistinct2 c0))
        ∧ (nDistinct2 c1 = 1 ∨ nDistinct2 c1 = max (nDistinct1 c0) (nDistinct2 c0))) →
      estimateMultiCov (c0 :: c1 :: rest) rand rand2 m = .error .inconsistentCorrs) := by
  have key : ∀ (l : List Corr) (er : CovError), getPatchNums l = .error er →
      estimateMultiCov l rand rand2 m = .error er := by
    intro l er hl
    rcases hm with h | h | h | h <;> subst h <;>
      simp [estimateMultiCov_jack, estimateMultiCov_sample, estimateMultiCov_boot,
        estimateMultiCov_boot2, covJackknife, covSample, covBootstrap, covBootstrap2,
        hl, Except.map]
  refine ⟨?_, ?_, ?_⟩
  · intro h0
    refine key _ _ ?_
    have hk : keysOf c0 = [] := by simp [keysOf, h0]
    simp [getPatchNums, hk]
  · intro hne h1 h2 hd ha hb
    refine key _ _ ?_
    simp only [getPatchNums]
    rw [if_neg hne, if_pos ⟨h1, h2⟩, if_pos ⟨hd, ha, hb⟩]
  · intro hne h1 h2 hnm hc1
    refine key _ _ ?_
    simp only [getPatchNums]
    rw [if_neg hne, if_pos ⟨h1, h2⟩, if_neg hnm]
    simp only [checkRest]
    rw [if_neg hc1]
    rfl

/-- Witness for `patch_structure_errors`: jackknife on a single correlation
with an empty result store errors with "patches required". -/
theorem patch_structure_errors_witness :
    (("jackknife" : String) = "jackknife" ∨ ("jackknife" : String) = "sample"
      ∨ ("jackknife" : String) = "bootstrap" ∨ ("jackknife" : String) = "bootstrap2")
    ∧ estimateMultiCov [⟨[], 1, 0, fun _ => 0, 0⟩] (fun _ => []) (fun _ _ => [])
        ("jackknife") = .error .patchesRequired :=
  ⟨Or.inl rfl,
    (patch_structure_errors ("jackknife") ⟨[], 1, 0, fun _ => 0, 0⟩
      ⟨[], 1, 0, fun _ => 0, 0⟩ [] (fun _ => []) (fun _ _ => []) (Or.inl rfl)).1 rfl⟩

theorem sum_lookup_filter {V : Type} (g : V → ℚ) (d : V) (φ : ℕ × ℕ → Bool) :
    ∀ (l : List ((ℕ × ℕ) × V)), (l.map Prod.fst).Nodup →
      (((l.map Prod.fst).filter φ).map (fun p => g ((lookupKey p l).getD d))).sum
        = ((l.filter (fun e => φ e.1)).map (fun e => g e.2)).sum := by
  intro l
  induction l with
  | nil => intro _; simp
  | cons e tl ih =>
    intro h
    rw [List.map_cons, List.nodup_cons] at h
    obtain ⟨h1, h2⟩ := h
    have hmap : ∀ (l' : List (ℕ × ℕ)), (∀ p ∈ l', p ∈ tl.map Prod.fst) →
        l'.map (fun p => g ((lookupKey p (e :: tl)).getD d))
          = l'.map (fun p => g ((lookupKey p tl).getD d)) := by
      intro l' hl'
      refine List.map_congr_left ?_
      intro p hp
      have hne : ¬(e.1 = p) := fun hc => h1 (hc ▸ hl' p hp)
      simp [lookupKey, hne]
    by_cases hφ : φ e.1 = true
    · have hf1 : ((e.1 :: tl.map Prod.fst).filter φ) = e.1 :: (tl.map Prod.fst).filter φ :=
        List.filter_cons_of_pos hφ
      have hf2 : ((e :: tl).filter (fun x => φ x.1)) = e :: tl.filter (fun x => φ x.1) :=
        List.filter_cons_of_pos hφ
      rw [List.map_cons, hf1, hf2, List.map_cons, List.map_cons, List.sum_cons,
        List.sum_cons, hmap _ (fun p hp => List.mem_of_mem_filter hp), ih h2]
      congr 1
      simp [lookupKey]
    · have hf1 : ((e.1 :: tl.map Prod.fst).filter φ) = (tl.map Prod.fst).filter φ :=
        List.filter_cons_of_neg hφ
      have hf2 : ((e :: tl).filter (fun x => φ x.1)) = tl.filter (fun x => φ x.1) :=
        List.filter_cons_of_neg hφ
      rw [List.map_cons, hf1, hf2, hmap _ (fun p hp => List.mem_of_mem_filter hp), ih h2]

theorem getPatchNums_single (c : Corr) (np : ℕ)
    (hne : keysOf c ≠ [])
    (h1 : ((keysOf c).map Prod.fst).toFinset = Finset.range np)
    (h2 : ((keysOf c).map Prod.snd).toFinset = Finset.range np)
    (hn1 : nDistinct1 c = np) (hn2 : nDistinct2 c = np) :
    getPatchNums [c] = .ok ⟨np, [(np, np)]⟩ := by
  simp only [getPatchNums]
  rw [if_neg hne, if_pos ⟨by rw [hn1]; exact h1, by rw [hn2]; exact h2⟩,
    if_neg (by simp [hn1, hn2])]
  simp [checkRest, Except.map, hn1, hn2]

theorem catNum_single (c : Corr) (nn : ℕ × ℕ) (sel : ℕ → Corr → ℕ × ℕ → List (ℕ × ℕ))
    (t : ℕ) :
    catNum [c] [nn] sel t = if t < c.statLen then vnumRow c (sel 0 c nn) t else 0 := rfl

theorem catDen_single (c : Corr) (nn : ℕ × ℕ) (sel : ℕ → Corr → ℕ × ℕ → List (ℕ × ℕ))
    (t : ℕ) :
    catDen [c] [nn] sel t = if t < c.statLen then vdenomRow c (sel 0 c nn) t else 0 := rfl

theorem jackV_eq_spec (c : Corr) (np : ℕ) (hnp1 : np ≠ 1)
    (hnd : (keysOf c).Nodup) (i t : ℕ) (ht : t < c.statLen) :
    jackV [c] ⟨np, [(np, np)]⟩ i t = jackSpecV c i t := by
  have hj : jackPairs np np (keysOf c) i
      = (keysOf c).filter (fun p => p.1 ≠ i ∧ p.2 ≠ i) := by
    simp [jackPairs, hnp1]
  have hnum : catNum [c] [(np, np)]
      (fun _ cc nn => jackPairs nn.1 nn.2 (keysOf cc) i) t = jackSpecNum c i t := by
    rw [catNum_single, if_pos ht]
    show vnumRow c (jackPairs np np (keysOf c) i) t = _
    rw [hj]
    exact sum_lookup_filter (fun v => v.stat t) PRV.zero _ c.results hnd
  have hden : catDen [c] [(np, np)]
      (fun _ cc nn => jackPairs nn.1 nn.2 (keysOf cc) i) t = jackSpecDen c i t := by
    rw [catDen_single, if_pos ht]
    show vdenomRow c (jackPairs np np (keysOf c) i) t = _
    rw [hj]
    exact sum_lookup_filter (fun v => v.weight t) PRV.zero _ c.results hnd
  show catNum [c] [(np, np)] _ t / catDen [c] [(np, np)] _ t = _
  rw [hnum, hden]
  rfl

theorem jackV_zero (c : Corr) (np : ℕ) (i t : ℕ) (ht : ¬t < c.statLen) :
    jackV [c] ⟨np, [(np, np)]⟩ i t = 0 := by
  show catNum [c] [(np, np)] _ t / catDen [c] [(np, np)] _ t = 0
  rw [catNum_single, if_neg ht, zero_div]

theorem jackSpecV_perm (r2 l : List ((ℕ × ℕ) × PRV)) (hr : List.Perm r2 l)
    (ca cb : Corr) (hca : ca.results = r2) (hcb : cb.results = l) (i t : ℕ) :
    jackSpecV ca i t = jackSpecV cb i t := by
  unfold jackSpecV jackSpecNum jackSpecDen
  rw [hca, hcb]
  exact congrArg₂ (· / ·) ((hr.filter _).map _).sum_eq ((hr.filter _).map _).sum_eq

theorem jackSpecRightV_perm (r2 l : List ((ℕ × ℕ) × PRV)) (hr : List.Perm r2 l)
    (ca cb : Corr) (hca : ca.results = r2) (hcb : cb.results = l) (i t : ℕ) :
    jackSpecRightV ca i t = jackSpecRightV cb i t := by
  unfold jackSpecRightV jackSpecRightNum jackSpecRightDen
  rw [hca, hcb]
  exact congrArg₂ (· / ·) ((hr.filter _).map _).sum_eq ((hr.filter _).map _).sum_eq

theorem jackSpecLeftV_perm (r2 l : List ((ℕ × ℕ) × PRV)) (hr : List.Perm r2 l)
    (ca cb : Corr) (hca : ca.results = r2) (hcb : cb.results = l) (i t : ℕ) :
    jackSpecLeftV ca i t = jackSpecLeftV cb i t := by
  unfold jackSpecLeftV jackSpecLeftNum jackSpecLeftDen
  rw [hca, hcb]
  exact congrArg₂ (· / ·) ((hr.filter _).map _).sum_eq ((hr.filter _).map _).sum_eq

theorem filter_fst_map_pair (l : List ℕ) (i : ℕ) :
    (l.filter (fun j => j ≠ i)).map (fun j => ((j, 0) : ℕ × ℕ))
      = (l.map (fun j => ((j, 0) : ℕ × ℕ))).filter (fun p => p.1 ≠ i) := by
  induction l with
  | nil => rfl
  | cons x tl ih =>
    by_cases h : x = i
    · simp [List.filter_cons, h]
      simpa using ih
    · simp [List.filter_cons, h]
      simpa using ih

theorem filter_snd_map_pair (l : List ℕ) (i : ℕ) :
    (l.filter (fun j => j ≠ i)).map (fun j => ((0, j) : ℕ × ℕ))
      = (l.map (fun j => ((0, j) : ℕ × ℕ))).filter (fun p => p.2 ≠ i) := by
  induction l with
  | nil => rfl
  | cons x tl ih =>
    by_cases h : x = i
    · simp [List.filter_cons, h]
      simpa using ih
    · simp [List.filter_cons, h]
      simpa using ih

theorem keys_perm_pairs_right (c : Corr) (np : ℕ)
    (hnd : (keysOf c).Nodup)
    (h1 : ((keysOf c).map Prod.fst).toFinset = Finset.range np)
    (h2 : ((keysOf c).map Prod.snd).toFinset = Finset.range 1) :
    List.Perm ((List.range np).map (fun j => ((j, 0) : ℕ × ℕ))) (keysOf c) := by
  have hsnd : ∀ p ∈ keysOf c, p.2 = 0 := by
    intro p hp
    have hm : p.2 ∈ ((keysOf c).map Prod.snd).toFinset :=
      List.mem_toFinset.mpr (List.mem_map_of_mem _ hp)
    rw [h2] at hm
    have := Finset.mem_range.mp hm
    omega
  refine List.perm_of_nodup_nodup_toFinset_eq
    (List.Nodup.map (fun a b h => (Prod.ext_iff.mp h).1) (List.nodup_range np)) hnd ?_
  ext p
  simp only [List.mem_toFinset, List.mem_map, List.mem_range]
  constructor
  · rintro ⟨j, hj, rfl⟩
    have hjf : j ∈ (keysOf c).map Prod.fst := by
      have hm : j ∈ ((keysOf c).map Prod.fst).toFinset := by
        rw [h1]
        exact Finset.mem_range.mpr hj
      exact List.mem_toFinset.mp hm
    obtain ⟨q, hq, hqj⟩ := List.mem_map.mp hjf
    have hq2 := hsnd q hq
    have hqe : q = (j, 0) := by
      obtain ⟨q1, q2⟩ := q
      simp only at hqj hq2
      rw [hqj, hq2]
    rw [← hqe]
    exact hq
  · intro hp
    refine ⟨p.1, ?_, ?_⟩
    · have hm : p.1 ∈ ((keysOf c).map Prod.fst).toFinset :=
        List.mem_toFinset.mpr (List.mem_map_of_mem _ hp)
      rw [h1] at hm
      exact Finset.mem_range.mp hm
    · obtain ⟨p1, p2⟩ := p
      have h0 := hsnd (p1, p2) hp
      simp only at h0
      rw [h0]

theorem keys_perm_pairs_left (c : Corr) (np : ℕ)
    (hnd : (keysOf c).Nodup)
    (h1 : ((keysOf c).map Prod.fst).toFinset = Finset.range 1)
    (h2 : ((keysOf c).map Prod.snd).toFinset = Finset.range np) :
    List.Perm ((List.range np).map (fun j => ((0, j) : ℕ × ℕ))) (keysOf c) := by
  have hfst : ∀ p ∈ keysOf c, p.1 = 0 := by
    intro p hp
    have hm : p.1 ∈ ((keysOf c).map Prod.fst).toFinset :=
      List.mem_toFinset.mpr (List.mem_map_of_mem _ hp)
    rw [h1] at hm
    have := Finset.mem_range.mp hm
    omega
  refine List.perm_of_nodup_nodup_toFinset_eq
    (List.Nodup.map (fun a b h => (Prod.ext_iff.mp h).2) (List.nodup_range np)) hnd ?_
  ext p
  simp only [List.mem_toFinset, List.mem_map, List.mem_range]
  constructor
  · rintro ⟨j, hj, rfl⟩
    have hjf : j ∈ (keysOf c).map Prod.snd := by
      have hm : j ∈ ((keysOf c).map Prod.snd).toFinset := by
        rw [h2]
        exact Finset.mem_range.mpr hj
      exact List.mem_toFinset.mp hm
    obtain ⟨q, hq, hqj⟩ := List.mem_map.mp hjf
    have hq1 := hfst q hq
    have hqe : q = (0, j) := by
      obtain ⟨q1, q2⟩ := q
      simp only at hqj hq1
      rw [hqj, hq1]
    rw [← hqe]
    exact hq
  · intro hp
    refine ⟨p.2, ?_, ?_⟩
    · have hm : p.2 ∈ ((keysOf c).map Prod.snd).toFinset :=
        List.mem_toFinset.mpr (List.mem_map_of_mem _ hp)
      rw [h2] at hm
      exact Finset.mem_range.mp hm
    · obtain ⟨p1, p2⟩ := p
      have h0 := hfst (p1, p2) hp
      simp only at h0
      rw [h0]

theorem np_pos_of_cover (c : Corr) (np : ℕ) (hne : keysOf c ≠ [])
    (h1 : ((keysOf c).map Prod.fst).toFinset = Finset.range np) : 1 ≤ np := by
  obtain ⟨p, hp⟩ := List.exists_mem_of_ne_nil _ hne
  have hm : p.1 ∈ ((keysOf c).map Prod.fst).toFinset :=
    List.mem_toFinset.mpr (List.mem_map_of_mem _ hp)
  rw [h1] at hm
  have := Finset.mem_range.mp hm
  omega

theorem getPatchNums_single_pair (c : Corr) (n1 n2 npv : ℕ)
    (hne : keysOf c ≠ [])
    (h1 : ((keysOf c).map Prod.fst).toFinset = Finset.range n1)
    (h2 : ((keysOf c).map Prod.snd).toFinset = Finset.range n2)
    (hn1 : nDistinct1 c = n1) (hn2 : nDistinct2 c = n2)
    (hmm : ¬(n1 ≠ n2 ∧ n1 ≠ 1 ∧ n2 ≠ 1))
    (hmax : max n1 n2 = npv) :
    getPatchNums [c] = .ok ⟨npv, [(n1, n2)]⟩ := by
  simp only [getPatchNums]
  rw [if_neg hne, if_pos ⟨by rw [hn1]; exact h1, by rw [hn2]; exact h2⟩,
    if_neg (by rw [hn1, hn2]; exact hmm)]
  simp [checkRest, Except.map, hn1, hn2, hmax]

theorem jackV_zero_pair (c : Corr) (npv : ℕ) (nn : ℕ × ℕ) (i t : ℕ) (ht : ¬t < c.statLen) :
    jackV [c] ⟨npv, [nn]⟩ i t = 0 := by
  show catNum [c] [nn] _ t / catDen [c] [nn] _ t = 0
  rw [catNum_single, if_neg ht, zero_div]

theorem jackV_eq_spec_right (c : Corr) (np : ℕ)
    (hnd : (keysOf c).Nodup)
    (h1 : ((keysOf c).map Prod.fst).toFinset = Finset.range np)
    (h2 : ((keysOf c).map Prod.snd).toFinset = Finset.range 1)
    (i t : ℕ) (ht : t < c.statLen) :
    jackV [c] ⟨np, [(np, 1)]⟩ i t = jackSpecRightV c i t := by
  have hperm := keys_perm_pairs_right c np hnd h1 h2
  have hpf : List.Perm
      (((List.range np).map (fun j => ((j, 0) : ℕ × ℕ))).filter (fun p => p.1 ≠ i))
      ((keysOf c).filter (fun p => p.1 ≠ i)) := hperm.filter _
  have hj : jackPairs np 1 (keysOf c) i
      = ((List.range np).filter (fun j => j ≠ i)).map (fun j => (j, 0)) := by
    simp [jackPairs]
  have hnum : catNum [c] [(np, 1)]
      (fun _ cc nn => jackPairs nn.1 nn.2 (keysOf cc) i) t = jackSpecRightNum c i t := by
    rw [catNum_single, if_pos ht]
    show vnumRow c (jackPairs np 1 (keysOf c) i) t = _
    calc vnumRow c (jackPairs np 1 (keysOf c) i) t
        = ((((List.range np).map (fun j => ((j, 0) : ℕ × ℕ))).filter
            (fun p => p.1 ≠ i)).map (fun p => (resLookup c p).stat t)).sum := by
          rw [hj, filter_fst_map_pair]
          rfl
      _ = (((keysOf c).filter (fun p => p.1 ≠ i)).map
            (fun p => (resLookup c p).stat t)).sum := (hpf.map _).sum_eq
      _ = jackSpecRightNum c i t :=
          sum_lookup_filter (fun v => v.stat t) PRV.zero _ c.results hnd
  have hden : catDen [c] [(np, 1)]
      (fun _ cc nn => jackPairs nn.1 nn.2 (keysOf cc) i) t = jackSpecRightDen c i t := by
    rw [catDen_single, if_pos ht]
    show vdenomRow c (jackPairs np 1 (keysOf c) i) t = _
    calc vdenomRow c (jackPairs np 1 (keysOf c) i) t
        = ((((List.range np).map (fun j => ((j, 0) : ℕ × ℕ))).filter
            (fun p => p.1 ≠ i)).map (fun p => (resLookup c p).weight t)).sum := by
          rw [hj, filter_fst_map_pair]
          rfl
      _ = (((keysOf c).filter (fun p => p.1 ≠ i)).map
            (fun p => (resLookup c p).weight t)).sum := (hpf.map _).sum_eq
      _ = jackSpecRightDen c i t :=
          sum_lookup_filter (fun v => v.weight t) PRV.zero _ c.results hnd
  show catNum [c] [(np, 1)] _ t / catDen [c] [(np, 1)] _ t = _
  rw [hnum, hden]
  rfl

theorem jackV_eq_spec_left (c : Corr) (np : ℕ) (hnp1 : np ≠ 1)
    (hnd : (keysOf c).Nodup)
    (h1 : ((keysOf c).map Prod.fst).toFinset = Finset.range 1)
    (h2 : ((keysOf c).map Prod.snd).toFinset = Finset.range np)
    (i t : ℕ) (ht : t < c.statLen) :
    jackV [c] ⟨np, [(1, np)]⟩ i t = jackSpecLeftV c i t := by
  have hperm := keys_perm_pairs_left c np hnd h1 h2
  have hpf : List.Perm
      (((List.range np).map (fun j => ((0, j) : ℕ × ℕ))).filter (fun p => p.2 ≠ i))
      ((keysOf c).filter (fun p => p.2 ≠ i)) := hperm.filter _
  have hj : jackPairs 1 np (keysOf c) i
      = ((List.range np).filter (fun j => j ≠ i)).map (fun j => (0, j)) := by
    simp [jackPairs, hnp1]
  have hnum : catNum [c] [(1, np)]
      (fun _ cc nn => jackPairs nn.1 nn.2 (keysOf cc) i) t = jackSpecLeftNum c i t := by
    rw [catNum_single, if_pos ht]
    show vnumRow c (jackPairs 1 np (keysOf c) i) t = _
    calc vnumRow c (jackPairs 1 np (keysOf c) i) t
        = ((((List.range np).map (fun j => ((0, j) : ℕ × ℕ))).filter
            (fun p => p.2 ≠ i)).map (fun p => (resLookup c p).stat t)).sum := by
          rw [hj, filter_snd_map_pair]
          rfl
      _ = (((keysOf c).filter (fun p => p.2 ≠ i)).map
            (fun p => (resLookup c p).stat t)).sum := (hpf.map _).sum_eq
      _ = jackSpecLeftNum c i t :=
          sum_lookup_filter (fun v => v.stat t) PRV.zero _ c.results hnd
  have hden : catDen [c] [(1, np)]
      (fun _ cc nn => jackPairs nn.1 nn.2 (keysOf cc) i) t = jackSpecLeftDen c i t := by
    rw [catDen_single, if_pos ht]
    show vdenomRow c (jackPairs 1 np (keysOf c) i) t = _
    calc vdenomRow c (jackPairs 1 np (keysOf c) i) t
        = ((((List.range np).map (fun j => ((0, j) : ℕ × ℕ))).filter
            (fun p => p.2 ≠ i)).map (fun p => (resLookup c p).weight t)).sum := by
          rw [hj, filter_snd_map_pair]
          rfl
      _ = (((keysOf c).filter (fun p => p.2 ≠ i)).map
            (fun p => (resLookup c p).weight t)).sum := (hpf.map _).sum_eq
      _ = jackSpecLeftDen c i t :=
          sum_lookup_filter (fun v => v.weight t) PRV.zero _ c.results hnd
  show catNum [c] [(1, np)] _ t / catDen [c] [(1, np)] _ t = _
  rw [hnum, hden]
  rfl

/-- C2: for a store whose two patch axes both cover 0..npatch-1 (npatch >= 2),
the jackknife covariance is `(1 - 1/npatch) * Σ_i (v_i - v̄)(v_i - v̄)^T` where
`v_i` is the elementwise ratio of the summed stat over the summed weight of
all stored pairs `(j,k)` with `j != i` and `k != i`; when instead one axis has
exactly 1 patch (all its stored indices 0), the samples iterate over the other
axis's index `i ∈ 0..npatch-1`, `v_i` being the same ratio over the stored
entries whose non-singleton index differs from `i`; in each case the matrix is
symmetric and does not depend on the order in which the patch pairs are
enumerated in the store. -/
theorem jackknife_covariance (c : Corr) (np : ℕ) :
    (2 ≤ np → (keysOf c).Nodup → keysOf c ≠ [] →
      ((keysOf c).map Prod.fst).toFinset = Finset.range np →
      ((keysOf c).map Prod.snd).toFinset = Finset.range np →
      ∃ M, covJackknife [c] = .ok M
        ∧ (∀ a b, a < c.statLen → b < c.statLen →
            M a b = (1 - 1 / (np : ℚ)) * Finset.sum (Finset.range np) (fun i =>
              (jackSpecV c i a - rowMean (jackSpecV c) np a)
                * (jackSpecV c i b - rowMean (jackSpecV c) np b)))
        ∧ (∀ a b, M a b = M b a)
        ∧ (∀ r2, List.Perm r2 c.results →
            covJackknife [{ c with results := r2 }] = covJackknife [c]))
    ∧ ((keysOf c).Nodup → keysOf c ≠ [] →
      ((keysOf c).map Prod.fst).toFinset = Finset.range np →
      ((keysOf c).map Prod.snd).toFinset = Finset.range 1 →
      ∃ M, covJackknife [c] = .ok M
        ∧ (∀ a b, a < c.statLen → b < c.statLen →
            M a b = (1 - 1 / (np : ℚ)) * Finset.sum (Finset.range np) (fun i =>
              (jackSpecRightV c i a - rowMean (jackSpecRightV c) np a)
                * (jackSpecRightV c i b - rowMean (jackSpecRightV c) np b)))
        ∧ (∀ a b, M a b = M b a)
        ∧ (∀ r2, List.Perm r2 c.results →
            covJackknife [{ c with results := r2 }] = covJackknife [c]))
    ∧ (2 ≤ np → (keysOf c).Nodup → keysOf c ≠ [] →
      ((keysOf c).map Prod.fst).toFinset = Finset.range 1 →
      ((keysOf c).map Prod.snd).toFinset = Finset.range np →
      ∃ M, covJackknife [c] = .ok M
        ∧ (∀ a b, a < c.statLen → b < c.statLen →
            M a b = (1 - 1 / (np : ℚ)) * Finset.sum (Finset.range np) (fun i =>
              (jackSpecLeftV c i a - rowMean (jackSpecLeftV c) np a)
                * (jackSpecLeftV c i b - rowMean (jackSpecLeftV c) np b)))
        ∧ (∀ a b, M a b = M b a)
        ∧ (∀ r2, List.Perm r2 c.results →
            covJackknife [{ c with results := r2 }] = covJackknife [c])) := by
  refine ⟨?_, ?_, ?_⟩
  · intro hnp hnd hne h1 h2
    have hnp1 : np ≠ 1 := by omega
    have hn1 : nDistinct1 c = np := by
      have hcard := List.card_toFinset ((keysOf c).map Prod.fst)
      rw [h1, Finset.card_range] at hcard
      simpa [nDistinct1] using hcard.symm
    have hn2 : nDistinct2 c = np := by
      have hcard := List.card_toFinset ((keysOf c).map Prod.snd)
      rw [h2, Finset.card_range] at hcard
      simpa [nDistinct2] using hcard.symm
    have hpn : getPatchNums [c] = .ok ⟨np, [(np, np)]⟩ :=
      getPatchNums_single c np hne h1 h2 hn1 hn2
    have hcov : covJackknife [c]
        = .ok (centeredGram (1 - 1 / (np : ℚ)) (jackV [c] ⟨np, [(np, np)]⟩) np) := by
      simp [covJackknife, hpn, Except.map]
    refine ⟨_, hcov, ?_, ?_, ?_⟩
    · intro a b ha hb
      have hma : rowMean (jackV [c] ⟨np, [(np, np)]⟩) np a = rowMean (jackSpecV c) np a := by
        unfold rowMean
        congr 1
        exact Finset.sum_congr rfl fun j _ => jackV_eq_spec c np hnp1 hnd j a ha
      have hmb : rowMean (jackV [c] ⟨np, [(np, np)]⟩) np b = rowMean (jackSpecV c) np b := by
        unfold rowMean
        congr 1
        exact Finset.sum_congr rfl fun j _ => jackV_eq_spec c np hnp1 hnd j b hb
      unfold centeredGram
      congr 1
      refine Finset.sum_congr rfl ?_
      intro i _
      rw [jackV_eq_spec c np hnp1 hnd i a ha, jackV_eq_spec c np hnp1 hnd i b hb, hma, hmb]
    · intro a b
      unfold centeredGram
      congr 1
      exact Finset.sum_congr rfl fun i _ => mul_comm _ _
    · intro r2 hr
      have hkeys : List.Perm (keysOf { c with results := r2 }) (keysOf c) := hr.map Prod.fst
      have hnd2 : (keysOf { c with results := r2 }).Nodup := hkeys.nodup_iff.mpr hnd
      have hne2 : keysOf { c with results := r2 } ≠ [] := by
        intro h0
        apply hne
        have hl := hkeys.length_eq
        rw [h0] at hl
        exact List.length_eq_zero.mp hl.symm
      have h12 : ((keysOf { c with results := r2 }).map Prod.fst).toFinset
          = Finset.range np := by
        rw [List.toFinset_eq_of_perm _ _ (hkeys.map Prod.fst)]
        exact h1
      have h22 : ((keysOf { c with results := r2 }).map Prod.snd).toFinset
          = Finset.range np := by
        rw [List.toFinset_eq_of_perm _ _ (hkeys.map Prod.snd)]
        exact h2
      have hn12 : nDistinct1 { c with results := r2 } = np := by
        have hp := ((hkeys.map Prod.fst).dedup).length_eq
        exact hp.trans hn1
      have hn22 : nDistinct2 { c with results := r2 } = np := by
        have hp := ((hkeys.map Prod.snd).dedup).length_eq
        exact hp.trans hn2
      have hpn2 : getPatchNums [{ c with results := r2 }] = .ok ⟨np, [(np, np)]⟩ :=
        getPatchNums_single _ np hne2 h12 h22 hn12 hn22
      have hveq : jackV [{ c with results := r2 }] ⟨np, [(np, np)]⟩
          = jackV [c] ⟨np, [(np, np)]⟩ := by
        funext i t
        by_cases ht : t < c.statLen
        · rw [jackV_eq_spec { c with results := r2 } np hnp1 hnd2 i t ht,
            jackV_eq_spec c np hnp1 hnd i t ht]
          exact jackSpecV_perm r2 c.results hr { c with results := r2 } c rfl rfl i t
        · rw [jackV_zero { c with results := r2 } np i t ht, jackV_zero c np i t ht]
      have hcov2 : covJackknife [{ c with results := r2 }]
          = .ok (centeredGram (1 - 1 / (np : ℚ))
              (jackV [{ c with results := r2 }] ⟨np, [(np, np)]⟩) np) := by
        simp [covJackknife, hpn2, Except.map]
      rw [hcov2, hcov, hveq]
  · intro hnd hne h1 h2
    have hpos : 1 ≤ np := np_pos_of_cover c np hne h1
    have hn1 : nDistinct1 c = np := by
      have hcard := List.card_toFinset ((keysOf c).map Prod.fst)
      rw [h1, Finset.card_range] at hcard
      simpa [nDistinct1] using hcard.symm
    have hn2 : nDistinct2 c = 1 := by
      have hcard := List.card_toFinset ((keysOf c).map Prod.snd)
      rw [h2, Finset.card_range] at hcard
      simpa [nDistinct2] using hcard.symm
    have hpn : getPatchNums [c] = .ok ⟨np, [(np, 1)]⟩ :=
      getPatchNums_single_pair c np 1 np hne h1 h2 hn1 hn2 (by simp)
        (Nat.max_eq_left hpos)
    have hcov : covJackknife [c]
        = .ok (centeredGram (1 - 1 / (np : ℚ)) (jackV [c] ⟨np, [(np, 1)]⟩) np) := by
      simp [covJackknife, hpn, Except.map]
    refine ⟨_, hcov, ?_, ?_, ?_⟩
    · intro a b ha hb
      have hma : rowMean (jackV [c] ⟨np, [(np, 1)]⟩) np a
          = rowMean (jackSpecRightV c) np a := by
        unfold rowMean
        congr 1
        exact Finset.sum_congr rfl fun j _ => jackV_eq_spec_right c np hnd h1 h2 j a ha
      have hmb : rowMean (jackV [c] ⟨np, [(np, 1)]⟩) np b
          = rowMean (jackSpecRightV c) np b := by
        unfold rowMean
        congr 1
        exact Finset.sum_congr rfl fun j _ => jackV_eq_spec_right c np hnd h1 h2 j b hb
      unfold centeredGram
      congr 1
      refine Finset.sum_congr rfl ?_
      intro i _
      rw [jackV_eq_spec_right c np hnd h1 h2 i a ha,
        jackV_eq_spec_right c np hnd h1 h2 i b hb, hma, hmb]
    · intro a b
      unfold centeredGram
      congr 1
      exact Finset.sum_congr rfl fun i _ => mul_comm _ _
    · intro r2 hr
      have hkeys : List.Perm (keysOf { c with results := r2 }) (keysOf c) := hr.map Prod.fst
      have hnd2 : (keysOf { c with results := r2 }).Nodup := hkeys.nodup_iff.mpr hnd
      have hne2 : keysOf { c with results := r2 } ≠ [] := by
        intro h0
        apply hne
        have hl := hkeys.length_eq
        rw [h0] at hl
        exact List.length_eq_zero.mp hl.symm
      have h12 : ((keysOf { c with results := r2 }).map Prod.fst).toFinset
          = Finset.range np := by
        rw [List.toFinset_eq_of_perm _ _ (hkeys.map Prod.fst)]
        exact h1
      have h22 : ((keysOf { c with results := r2 }).map Prod.snd).toFinset
          = Finset.range 1 := by
        rw [List.toFinset_eq_of_perm _ _ (hkeys.map Prod.snd)]
        exact h2
      have hn12 : nDistinct1 { c with results := r2 } = np := by
        have hp := ((hkeys.map Prod.fst).dedup).length_eq
        exact hp.trans hn1
      have hn22 : nDistinct2 { c with results := r2 } = 1 := by
        have hp := ((hkeys.map Prod.snd).dedup).length_eq
        exact hp.trans hn2
      have hpn2 : getPatchNums [{ c with results := r2 }] = .ok ⟨np, [(np, 1)]⟩ :=
        getPatchNums_single_pair _ np 1 np hne2 h12 h22 hn12 hn22 (by simp)
          (Nat.max_eq_left hpos)
      have hveq : jackV [{ c with results := r2 }] ⟨np, [(np, 1)]⟩
          = jackV [c] ⟨np, [(np, 1)]⟩ := by
        funext i t
        by_cases ht : t < c.statLen
        · rw [jackV_eq_spec_right { c with results := r2 } np hnd2 h12 h22 i t ht,
            jackV_eq_spec_right c np hnd h1 h2 i t ht]
          exact jackSpecRightV_perm r2 c.results hr { c with results := r2 } c rfl rfl i t
        · rw [jackV_zero_pair { c with results := r2 } np (np, 1) i t ht,
            jackV_zero_pair c np (np, 1) i t ht]
      have hcov2 : covJackknife [{ c with results := r2 }]
          = .ok (centeredGram (1 - 1 / (np : ℚ))
              (jackV [{ c with results := r2 }] ⟨np, [(np, 1)]⟩) np) := by
        simp [covJackknife, hpn2, Except.map]
      rw [hcov2, hcov, hveq]
  · intro hnp hnd hne h1 h2
    have hnp1 : np ≠ 1 := by omega
    have hpos : 1 ≤ np := by omega
    have hn1 : nDistinct1 c = 1 := by
      have hcard := List.card_toFinset ((keysOf c).map Prod.fst)
      rw [h1, Finset.card_range] at hcard
      simpa [nDistinct1] using hcard.symm
    have hn2 : nDistinct2 c = np := by
      have hcard := List.card_toFinset ((keysOf c).map Prod.snd)
      rw [h2, Finset.card_range] at hcard
      simpa [nDistinct2] using hcard.symm
    have hpn : getPatchNums [c] = .ok ⟨np, [(1, np)]⟩ :=
      getPatchNums_single_pair c 1 np np hne h1 h2 hn1 hn2 (by simp)
        (Nat.max_eq_right hpos)
    have hcov : covJackknife [c]
        = .ok (centeredGram (1 - 1 / (np : ℚ)) (jackV [c] ⟨np, [(1, np)]⟩) np) := by
      simp [covJackknife, hpn, Except.map]
    refine ⟨_, hcov, ?_, ?_, ?_⟩
    · intro a b ha hb
      have hma : rowMean (jackV [c] ⟨np, [(1, np)]⟩) np a
          = rowMean (jackSpecLeftV c) np a := by
        unfold rowMean
        congr 1
        exact Finset.sum_congr rfl fun j _ =>
          jackV_eq_spec_left c np hnp1 hnd h1 h2 j a ha
      have hmb : rowMean (jackV [c] ⟨np, [(1, np)]⟩) np b
          = rowMean (jackSpecLeftV c) np b := by
        unfold rowMean
        congr 1
        exact Finset.sum_congr rfl fun j _ =>
          jackV_eq_spec_left c np hnp1 hnd h1 h2 j b hb
      unfold centeredGram
      congr 1
      refine Finset.sum_congr rfl ?_
      intro i _
      rw [jackV_eq_spec_left c np hnp1 hnd h1 h2 i a ha,
        jackV_eq_spec_left c np hnp1 hnd h1 h2 i b hb, hma, hmb]
    · intro a b
      unfold centeredGram
      congr 1
      exact Finset.sum_congr rfl fun i _ => mul_comm _ _
    · intro r2 hr
      have hkeys : List.Perm (keysOf { c with results := r2 }) (keysOf c) := hr.map Prod.fst
      have hnd2 : (keysOf { c with results := r2 }).Nodup := hkeys.nodup_iff.mpr hnd
      have hne2 : keysOf { c with results := r2 } ≠ [] := by
        intro h0
        apply hne
        have hl := hkeys.length_eq
        rw [h0] at hl
        exact List.length_eq_zero.mp hl.symm
      have h12 : ((keysOf { c with results := r2 }).map Prod.fst).toFinset
          = Finset.range 1 := by
        rw [List.toFinset_eq_of_perm _ _ (hkeys.map Prod.fst)]
        exact h1
      have h22 : ((keysOf { c with results := r2 }).map Prod.snd).toFinset
          = Finset.range np := by
        rw [List.toFinset_eq_of_perm _ _ (hkeys.map Prod.snd)]
        exact h2
      have hn12 : nDistinct1 { c with results := r2 } = 1 := by
        have hp := ((hkeys.map Prod.fst).dedup).length_eq
        exact hp.trans hn1
      have hn22 : nDistinct2 { c with results := r2 } = np := by
        have hp := ((hkeys.map Prod.snd).dedup).length_eq
        exact hp.trans hn2
      have hpn2 : getPatchNums [{ c with results := r2 }] = .ok ⟨np, [(1, np)]⟩ :=
        getPatchNums_single_pair _ 1 np np hne2 h12 h22 hn12 hn22 (by simp)
          (Nat.max_eq_right hpos)
      have hveq : jackV [{ c with results := r2 }] ⟨np, [(1, np)]⟩
          = jackV [c] ⟨np, [(1, np)]⟩ := by
        funext i t
        by_cases ht : t < c.statLen
        · rw [jackV_eq_spec_left { c with results := r2 } np hnp1 hnd2 h12 h22 i t ht,
            jackV_eq_spec_left c np hnp1 hnd h1 h2 i t ht]
          exact jackSpecLeftV_perm r2 c.results hr { c with results := r2 } c rfl rfl i t
        · rw [jackV_zero_pair { c with results := r2 } np (1, np) i t ht,
            jackV_zero_pair c np (1, np) i t ht]
      have hcov2 : covJackknife [{ c with results := r2 }]
          = .ok (centeredGram (1 - 1 / (np : ℚ))
              (jackV [{ c with results := r2 }] ⟨np, [(1, np)]⟩) np) := by
        simp [covJackknife, hpn2, Except.map]
      rw [hcov2, hcov, hveq]

theorem count_map_diag (indx : List ℕ) (a : ℕ) :
    ((indx.map (fun i => (i, i))).count (a, a)) = indx.count a := by
  induction indx with
  | nil => rfl
  | cons x tl ih =>
    simp only [List.map_cons, List.count_cons, ih, beq_iff_eq, Prod.mk.injEq]
    by_cases h : x = a <;> simp [h]

theorem count_map_diag_ne (indx : List ℕ) (i j : ℕ) (h : i ≠ j) :
    ((indx.map (fun a => (a, a))).count (i, j)) = 0 := by
  induction indx with
  | nil => rfl
  | cons x tl ih =>
    simp only [List.map_cons, List.count_cons, ih, beq_iff_eq, Prod.mk.injEq]
    by_cases h1 : x = i <;> by_cases h2 : x = j <;> simp_all

theorem count_map_pair_fix (a : ℕ) (l : List ℕ) (i j : ℕ) :
    ((l.map (fun b => (a, b))).count (i, j)) = if a = i then l.count j else 0 := by
  induction l with
  | nil => simp
  | cons x tl ih =>
    simp only [List.map_cons, List.count_cons, ih, beq_iff_eq, Prod.mk.injEq]
    by_cases ha : a = i <;> by_cases hx : x = j <;> simp_all

theorem count_filter_ite (l : List ℕ) (j : ℕ) (q : ℕ → Bool) :
    ((l.filter q).count j) = if q j then l.count j else 0 := by
  induction l with
  | nil => simp
  | cons x tl ih =>
    by_cases hx : q x = true
    · rw [List.filter_cons_of_pos hx]
      simp only [List.count_cons, ih, beq_iff_eq]
      by_cases hxj : x = j
      · subst hxj
        simp [hx]
      · simp [hxj, Ne.symm hxj]
    · rw [List.filter_cons_of_neg hx, ih]
      by_cases hxj : x = j
      · subst hxj
        simp [hx]
      · simp [List.count_cons, hxj, Ne.symm hxj]

theorem count_boot2_inner (indx : List ℕ) (pairs : List (ℕ × ℕ)) (a i j : ℕ) (hij : i ≠ j) :
    (((indx.filter (fun b => a ≠ b ∧ (a, b) ∈ pairs)).map (fun b => (a, b))).count (i, j))
      = if a = i ∧ (i, j) ∈ pairs then indx.count j else 0 := by
  rw [count_map_pair_fix]
  by_cases ha : a = i
  · subst ha
    rw [count_filter_ite]
    by_cases hp : (a, j) ∈ pairs
    · simp [hij, hp]
    · simp [hp]
  · simp [ha]

theorem count_flatMap_pairs (outer : List ℕ) (g : ℕ → List (ℕ × ℕ)) (x : ℕ × ℕ) :
    ((outer.flatMap g).count x) = (outer.map (fun a => (g a).count x)).sum := by
  induction outer with
  | nil => simp
  | cons a tl ih => simp [List.flatMap_cons, List.count_append, ih]

theorem sum_map_ite_count (outer : List ℕ) (i : ℕ) (c0 : ℕ) :
    (outer.map (fun a => if a = i then c0 else 0)).sum = outer.count i * c0 := by
  induction outer with
  | nil => simp
  | cons a tl ih =>
    by_cases h : a = i <;> simp [List.count_cons, h, ih] <;> ring

theorem boot2_count_auto (pairs : List (ℕ × ℕ)) (indx : List ℕ) (a : ℕ) :
    (boot2SamplePairs pairs indx).count (a, a) = indx.count a := by
  unfold boot2SamplePairs
  rw [List.count_append, count_map_diag, count_flatMap_pairs]
  have hz : ∀ x ∈ indx, ((indx.filter (fun j => x ≠ j ∧ (x, j) ∈ pairs)).map
      (fun j => (x, j))).count (a, a) = 0 := by
    intro x _
    rw [count_map_pair_fix]
    by_cases hx : x = a
    · subst hx
      rw [if_pos rfl, count_filter_ite]
      simp
    · rw [if_neg hx]
  rw [List.map_congr_left hz]
  simp

theorem boot2_count_cross (pairs : List (ℕ × ℕ)) (indx : List ℕ) (i j : ℕ) (hij : i ≠ j) :
    (boot2SamplePairs pairs indx).count (i, j)
      = if (i, j) ∈ pairs then indx.count i * indx.count j else 0 := by
  unfold boot2SamplePairs
  rw [List.count_append, count_map_diag_ne indx i j hij, count_flatMap_pairs]
  have hpt : ∀ x ∈ indx, ((indx.filter (fun b => x ≠ b ∧ (x, b) ∈ pairs)).map
      (fun b => (x, b))).count (i, j)
      = if x = i then (if (i, j) ∈ pairs then indx.count j else 0) else 0 := by
    intro x _
    rw [count_boot2_inner indx pairs x i j hij]
    by_cases hx : x = i <;> by_cases hp : (i, j) ∈ pairs <;> simp_all
  rw [List.map_congr_left hpt, sum_map_ite_count]
  by_cases hp : (i, j) ∈ pairs <;> simp [hp]

/-- C3 counterexample: with the 3x3 store and the draw [0, 0, 1] (both
endpoints of the stored cross pair (0,1) are present in the draw), the
bootstrap2 resample multiset contains the genuinely-cross pair (0,1) TWICE
(count of 0 in the draw times count of 1), not exactly once as claimed. -/
theorem boot2_cross_pair_not_deduplicated :
    (0, 1) ∈ boot2CexPairs ∧ (0 : ℕ) ≠ 1
    ∧ (boot2SamplePairs boot2CexPairs [0, 0, 1]).count (0, 1) = 2 := by decide

theorem dedup_length_of_toFinset_range (l : List ℕ) (np : ℕ)
    (h : l.toFinset = Finset.range np) : l.dedup.length = np := by
  have hcard := List.card_toFinset l
  rw [h, Finset.card_range] at hcard
  exact hcard.symm

/-- C3 (amended): in every bootstrap2 resampling draw (symmetric case,
npatch > 1), the resample's multiset contains each drawn index's auto-pair
once per repetition of the index in the draw, and each stored genuinely-cross
pair (i,j), i != j, once per ordered pair of occurrences of its endpoints —
i.e. (count of i in draw) * (count of j in draw) times, NOT deduplicated by
presence; the per-draw statistic is the summed stat/weight ratio over that
multiset and the draws aggregate as `C = 1/(nboot-1) Σ_k (v_k-v̄)(v_k-v̄)^T`. -/
theorem bootstrap2_resampling (c : Corr) (np : ℕ) (rand2 : ℕ → ℕ → List ℕ)
    (hnp : 2 ≤ np) (hne : keysOf c ≠ [])
    (h1 : ((keysOf c).map Prod.fst).toFinset = Finset.range np)
    (h2 : ((keysOf c).map Prod.snd).toFinset = Finset.range np) :
    (∀ (pairs : List (ℕ × ℕ)) (indx : List ℕ) (a : ℕ),
        (boot2SamplePairs pairs indx).count (a, a) = indx.count a)
    ∧ (∀ (pairs : List (ℕ × ℕ)) (indx : List ℕ) (i j : ℕ), i ≠ j →
        (boot2SamplePairs pairs indx).count (i, j)
          = if (i, j) ∈ pairs then indx.count i * indx.count j else 0)
    ∧ (∃ M, covBootstrap2 [c] rand2 = .ok M
        ∧ ∀ a b, a < c.statLen → b < c.statLen →
          M a b = 1 / ((nbootOf [c] : ℚ) - 1)
            * Finset.sum (Finset.range (nbootOf [c])) (fun k =>
              (boot2RatioV c rand2 k a - rowMean (boot2RatioV c rand2) (nbootOf [c]) a)
                * (boot2RatioV c rand2 k b
                    - rowMean (boot2RatioV c rand2) (nbootOf [c]) b))) := by
  have hnp1 : np ≠ 1 := by omega
  have hn1 : nDistinct1 c = np :=
    dedup_length_of_toFinset_range _ np h1
  have hn2 : nDistinct2 c = np :=
    dedup_length_of_toFinset_range _ np h2
  have hpn : getPatchNums [c] = .ok ⟨np, [(np, np)]⟩ :=
    getPatchNums_single c np hne h1 h2 hn1 hn2
  have hcov : covBootstrap2 [c] rand2
      = .ok (centeredGram (1 / ((nbootOf [c] : ℚ) - 1))
          (boot2V [c] ⟨np, [(np, np)]⟩ rand2) (nbootOf [c])) := by
    simp [covBootstrap2, hpn, Except.map]
  have hbv : ∀ k t, t < c.statLen →
      boot2V [c] ⟨np, [(np, np)]⟩ rand2 k t = boot2RatioV c rand2 k t := by
    intro k t ht
    have hsel : boot2PairsFor np np (keysOf c) (rand2 0 k)
        = boot2SamplePairs (keysOf c) (rand2 0 k) := by
      simp [boot2PairsFor, hnp1]
    show catNum [c] [(np, np)] _ t / catDen [c] [(np, np)] _ t = _
    rw [catNum_single, catDen_single, if_pos ht, if_pos ht]
    show vnumRow c (boot2PairsFor np np (keysOf c) (rand2 0 k)) t
        / vdenomRow c (boot2PairsFor np np (keysOf c) (rand2 0 k)) t = _
    rw [hsel]
    rfl
  refine ⟨fun pairs indx a => boot2_count_auto pairs indx a,
    fun pairs indx i j hij => boot2_count_cross pairs indx i j hij, _, hcov, ?_⟩
  intro a b ha hb
  have hma : rowMean (boot2V [c] ⟨np, [(np, np)]⟩ rand2) (nbootOf [c]) a
      = rowMean (boot2RatioV c rand2) (nbootOf [c]) a := by
    unfold rowMean
    congr 1
    exact Finset.sum_congr rfl fun k _ => hbv k a ha
  have hmb : rowMean (boot2V [c] ⟨np, [(np, np)]⟩ rand2) (nbootOf [c]) b
      = rowMean (boot2RatioV c rand2) (nbootOf [c]) b := by
    unfold rowMean
    congr 1
    exact Finset.sum_congr rfl fun k _ => hbv k b hb
  unfold centeredGram
  congr 1
  refine Finset.sum_congr rfl ?_
  intro k _
  rw [hbv k a ha, hbv k b hb, hma, hmb]

theorem le_nbootOf (l : List Corr) : ∀ c ∈ l, c.numBootstrap ≤ nbootOf l := by
  induction l with
  | nil => simp
  | cons x xs ih =>
    intro c hc
    rcases List.mem_cons.mp hc with hc | hc
    · subst hc
      exact le_max_left _ _
    · exact (ih c hc).trans (le_max_right _ _)

theorem nbootOf_mem (x : Corr) (xs : List Corr) :
    ∃ c ∈ x :: xs, c.numBootstrap = nbootOf (x :: xs) := by
  induction xs generalizing x with
  | nil => exact ⟨x, by simp, by simp [nbootOf]⟩
  | cons y ys ih =>
    rcases le_total x.numBootstrap (nbootOf (y :: ys)) with h | h
    · obtain ⟨c, hc, hceq⟩ := ih y
      refine ⟨c, by simp [List.mem_cons.mp hc], ?_⟩
      show c.numBootstrap = max x.numBootstrap (nbootOf (y :: ys))
      rw [max_eq_right h]
      exact hceq
    · refine ⟨x, by simp, ?_⟩
      show x.numBootstrap = max x.numBootstrap (nbootOf (y :: ys))
      exact (max_eq_left h).symm

/-- C9: when `estimate_multi_cov` runs bootstrap or bootstrap2 over correlation
objects with different `num_bootstrap` settings, the number of resamplings
performed equals the maximum `num_bootstrap` over the list (the result depends
on the random source only below that maximum, every `num_bootstrap` is bounded
by it and it is attained), and the `1/(nboot-1)` normalization uses it. -/
theorem bootstrap_uses_max_nboot (corrs : List Corr) (c0 : Corr) (rest : List Corr)
    (rand rand3 : ℕ → List ℕ) (rand2 rand4 : ℕ → ℕ → List ℕ)
    (hc : corrs = c0 :: rest)
    (hr : ∀ k, k < nbootOf corrs → rand k = rand3 k)
    (hr2 : ∀ i k, k < nbootOf corrs → rand2 i k = rand4 i k) :
    covBootstrap corrs rand = covBootstrap corrs rand3
    ∧ covBootstrap2 corrs rand2 = covBootstrap2 corrs rand4
    ∧ (∀ c ∈ corrs, c.numBootstrap ≤ nbootOf corrs)
    ∧ (∃ c ∈ corrs, c.numBootstrap = nbootOf corrs)
    ∧ (∀ pn, getPatchNums corrs = .ok pn →
        covBootstrap corrs rand = .ok (fun a b =>
          1 / ((nbootOf corrs : ℚ) - 1)
            * Finset.sum (Finset.range (nbootOf corrs)) (fun k =>
              (bootV corrs pn rand k a - rowMean (bootV corrs pn rand) (nbootOf corrs) a)
                * (bootV corrs pn rand k b
                    - rowMean (bootV corrs pn rand) (nbootOf corrs) b)))) := by
  refine ⟨?_, ?_, le_nbootOf corrs, ?_, ?_⟩
  · cases hg : getPatchNums corrs with
    | error e => simp [covBootstrap, hg, Except.map]
    | ok pn =>
      simp only [covBootstrap, hg, Except.map]
      congr 1
      funext a b
      have hb : ∀ k, k < nbootOf corrs → ∀ t,
          bootV corrs pn rand k t = bootV corrs pn rand3 k t := by
        intro k hk t
        unfold bootV
        rw [hr k hk]
      have hm : ∀ t, rowMean (bootV corrs pn rand) (nbootOf corrs) t
          = rowMean (bootV corrs pn rand3) (nbootOf corrs) t := by
        intro t
        unfold rowMean
        congr 1
        exact Finset.sum_congr rfl fun k hk => hb k (Finset.mem_range.mp hk) t
      unfold centeredGram
      congr 1
      refine Finset.sum_congr rfl ?_
      intro k hk
      rw [hb k (Finset.mem_range.mp hk) a, hb k (Finset.mem_range.mp hk) b, hm a, hm b]
  · cases hg : getPatchNums corrs with
    | error e => simp [covBootstrap2, hg, Except.map]
    | ok pn =>
      simp only [covBootstrap2, hg, Except.map]
      congr 1
      funext a b
      have hb : ∀ k, k < nbootOf corrs → ∀ t,
          boot2V corrs pn rand2 k t = boot2V corrs pn rand4 k t := by
        intro k hk t
        have hsel : (fun idx (cc : Corr) (nn : ℕ × ℕ) =>
              boot2PairsFor nn.1 nn.2 (keysOf cc) (rand2 idx k))
            = (fun idx cc nn => boot2PairsFor nn.1 nn.2 (keysOf cc) (rand4 idx k)) := by
          funext idx cc nn
          rw [hr2 idx k hk]
        unfold boot2V
        rw [hsel]
      have hm : ∀ t, rowMean (boot2V corrs pn rand2) (nbootOf corrs) t
          = rowMean (boot2V corrs pn rand4) (nbootOf corrs) t := by
        intro t
        unfold rowMean
        congr 1
        exact Finset.sum_congr rfl fun k hk => hb k (Finset.mem_range.mp hk) t
      unfold centeredGram
      congr 1
      refine Finset.sum_congr rfl ?_
      intro k hk
      rw [hb k (Finset.mem_range.mp hk) a, hb k (Finset.mem_range.mp hk) b, hm a, hm b]
  · rw [hc]
    exact nbootOf_mem c0 rest
  · intro pn hg
    simp only [covBootstrap, hg, Except.map]
    congr 1

/-- Witness for `bootstrap_uses_max_nboot` on two correlations with
`num_bootstrap` 2 and 3: the resampling count is their maximum, 3. -/
theorem bootstrap_uses_max_nboot_witness :
    nbootOf [(⟨[], 1, 0, fun _ => 0, 2⟩ : Corr), ⟨[], 1, 0, fun _ => 0, 3⟩] = 3
    ∧ (∃ c ∈ [(⟨[], 1, 0, fun _ => 0, 2⟩ : Corr), ⟨[], 1, 0, fun _ => 0, 3⟩],
        c.numBootstrap
          = nbootOf [(⟨[], 1, 0, fun _ => 0, 2⟩ : Corr), ⟨[], 1, 0, fun _ => 0, 3⟩]) :=
  ⟨rfl,
    (bootstrap_uses_max_nboot
      [(⟨[], 1, 0, fun _ => 0, 2⟩ : Corr), ⟨[], 1, 0, fun _ => 0, 3⟩]
      ⟨[], 1, 0, fun _ => 0, 2⟩ [⟨[], 1, 0, fun _ => 0, 3⟩]
      (fun _ => []) (fun _ => []) (fun _ _ => []) (fun _ _ => [])
      rfl (fun _ _ => rfl) (fun _ _ _ => rfl)).2.2.2.1⟩

theorem autoInner_results (vlen : ℕ) (f : ℕ → ℕ → RawResult) (i : ℕ) :
    ∀ (js : List ℕ) (st : AccState),
      (autoInner vlen f i js st).results
        = st.results ++ (js.filter (fun j => i < j ∧ 0 < sumNpairs vlen (f i j))).map
            (fun j => ((i, j), f i j)) := by
  intro js
  induction js with
  | nil => intro st; simp [autoInner]
  | cons j tl ih =>
    intro st
    simp only [autoInner]
    rw [ih]
    by_cases h1 : i < j
    · by_cases h2 : 0 < sumNpairs vlen (f i j)
      · simp [h1, h2, storeResult, List.filter_cons, List.append_assoc]
      · simp [h1, h2, addTot, List.filter_cons]
    · simp [h1, List.filter_cons]

theorem autoInner_skipped (vlen : ℕ) (f : ℕ → ℕ → RawResult) (i : ℕ) :
    ∀ (js : List ℕ) (st : AccState),
      (autoInner vlen f i js st).skipped
        = st.skipped ++ (js.filter (fun j => i < j ∧ ¬0 < sumNpairs vlen (f i j))).map
            (fun j => ((i, j), f i j)) := by
  intro js
  induction js with
  | nil => intro st; simp [autoInner]
  | cons j tl ih =>
    intro st
    simp only [autoInner]
    rw [ih]
    by_cases h1 : i < j
    · by_cases h2 : 0 < sumNpairs vlen (f i j)
      · simp [h1, h2, storeResult, List.filter_cons]
      · simp [h1, h2, addTot, List.filter_cons, List.append_assoc, not_lt.mp h2]
    · simp [h1, List.filter_cons]

theorem autoOuter_results (vlen : ℕ) (f : ℕ → ℕ → RawResult) (n : ℕ) :
    ∀ (is' : List ℕ) (st : AccState),
      (autoOuter vlen f n is' st).results
        = st.results ++ is'.flatMap (fun i => ((i, i), f i i) ::
            ((List.range n).filter (fun j => i < j ∧ 0 < sumNpairs vlen (f i j))).map
              (fun j => ((i, j), f i j))) := by
  intro is'
  induction is' with
  | nil => intro st; simp [autoOuter]
  | cons i tl ih =>
    intro st
    simp only [autoOuter]
    rw [ih, autoInner_results]
    simp [storeResult, List.flatMap_cons, List.append_assoc]

theorem autoOuter_skipped (vlen : ℕ) (f : ℕ → ℕ → RawResult) (n : ℕ) :
    ∀ (is' : List ℕ) (st : AccState),
      (autoOuter vlen f n is' st).skipped
        = st.skipped ++ is'.flatMap (fun i =>
            ((List.range n).filter (fun j => i < j ∧ ¬0 < sumNpairs vlen (f i j))).map
              (fun j => ((i, j), f i j))) := by
  intro is'
  induction is' with
  | nil => intro st; simp [autoOuter]
  | cons i tl ih =>
    intro st
    simp only [autoOuter]
    rw [ih, autoInner_skipped]
    simp [storeResult, List.flatMap_cons, List.append_assoc]

theorem crossInner_results (vlen : ℕ) (f : ℕ → ℕ → RawResult) (i : ℕ) :
    ∀ (js : List ℕ) (st : AccState),
      (crossInner vlen f i js st).results
        = st.results ++ (js.filter (fun j => i = j ∨ 0 < sumNpairs vlen (f i j))).map
            (fun j => ((i, j), f i j)) := by
  intro js
  induction js with
  | nil => intro st; simp [crossInner]
  | cons j tl ih =>
    intro st
    simp only [crossInner]
    rw [ih]
    by_cases h1 : i = j ∨ 0 < sumNpairs vlen (f i j)
    · simp [h1, storeResult, List.filter_cons, List.append_assoc]
    · simp [h1, addTot, List.filter_cons]

theorem crossInner_skipped (vlen : ℕ) (f : ℕ → ℕ → RawResult) (i : ℕ) :
    ∀ (js : List ℕ) (st : AccState),
      (crossInner vlen f i js st).skipped
        = st.skipped ++ (js.filter (fun j => ¬(i = j ∨ 0 < sumNpairs vlen (f i j)))).map
            (fun j => ((i, j), f i j)) := by
  intro js
  induction js with
  | nil => intro st; simp [crossInner]
  | cons j tl ih =>
    intro st
    simp only [crossInner]
    rw [ih]
    by_cases h1 : i = j ∨ 0 < sumNpairs vlen (f i j)
    · rcases h1 with hq | hq
      · simp [hq, storeResult, List.filter_cons]
      · simp [hq, storeResult, List.filter_cons, not_le.mpr hq]
    · obtain ⟨hne, hnl⟩ := not_or.mp h1
      simp [h1, hne, hnl, not_lt.mp hnl, addTot, List.filter_cons, List.append_assoc]

theorem crossOuter_results (vlen : ℕ) (f : ℕ → ℕ → RawResult) (n2 : ℕ) :
    ∀ (is' : List ℕ) (st : AccState),
      (crossOuter vlen f n2 is' st).results
        = st.results ++ is'.flatMap (fun i =>
            ((List.range n2).filter (fun j => i = j ∨ 0 < sumNpairs vlen (f i j))).map
              (fun j => ((i, j), f i j))) := by
  intro is'
  induction is' with
  | nil => intro st; simp [crossOuter]
  | cons i tl ih =>
    intro st
    simp only [crossOuter]
    rw [ih, crossInner_results]
    simp [List.flatMap_cons, List.append_assoc]

theorem crossOuter_skipped (vlen : ℕ) (f : ℕ → ℕ → RawResult) (n2 : ℕ) :
    ∀ (is' : List ℕ) (st : AccState),
      (crossOuter vlen f n2 is' st).skipped
        = st.skipped ++ is'.flatMap (fun i =>
            ((List.range n2).filter (fun j => ¬(i = j ∨ 0 < sumNpairs vlen (f i j)))).map
              (fun j => ((i, j), f i j))) := by
  intro is'
  induction is' with
  | nil => intro st; simp [crossOuter]
  | cons i tl ih =>
    intro st
    simp only [crossOuter]
    rw [ih, crossInner_skipped]
    simp [List.flatMap_cons, List.append_assoc]

theorem consistent_empty : Consistent AccState.empty := by
  refine ⟨fun t => ?_, fun t => ?_, fun t => ?_, ?_⟩ <;> simp [AccState.empty]

theorem consistent_store (st : AccState) (k : ℕ × ℕ) (r : RawResult)
    (h : Consistent st) : Consistent (storeResult st k r) := by
  obtain ⟨h1, h2, h3, h4⟩ := h
  refine ⟨fun t => ?_, fun t => ?_, fun t => ?_, ?_⟩
  · simp [storeResult, h1]
  · simp [storeResult, h2]
  · simp [storeResult, h3]
  · simp [storeResult, h4]
    ring

theorem consistent_addTot (st : AccState) (k : ℕ × ℕ) (r : RawResult)
    (h : Consistent st) : Consistent (addTot st k r) := by
  obtain ⟨h1, h2, h3, h4⟩ := h
  refine ⟨fun t => ?_, fun t => ?_, fun t => ?_, ?_⟩
  · simp [addTot, h1]
  · simp [addTot, h2]
  · simp [addTot, h3]
  · simp [addTot, h4]
    ring

theorem consistent_autoInner (vlen : ℕ) (f : ℕ → ℕ → RawResult) (i : ℕ) :
    ∀ (js : List ℕ) (st : AccState), Consistent st → Consistent (autoInner vlen f i js st) := by
  intro js
  induction js with
  | nil => intro st h; exact h
  | cons j tl ih =>
    intro st h
    simp only [autoInner]
    refine ih _ ?_
    by_cases h1 : i < j
    · by_cases h2 : 0 < sumNpairs vlen (f i j)
      · simp only [h1, h2, if_true, if_pos]
        exact consistent_store st (i, j) (f i j) h
      · simp only [h1, if_true, if_pos, if_neg h2]
        exact consistent_addTot st (i, j) (f i j) h
    · simpa [h1] using h

theorem consistent_autoOuter (vlen : ℕ) (f : ℕ → ℕ → RawResult) (n : ℕ) :
    ∀ (is' : List ℕ) (st : AccState), Consistent st → Consistent (autoOuter vlen f n is' st) := by
  intro is'
  induction is' with
  | nil => intro st h; exact h
  | cons i tl ih =>
    intro st h
    exact ih _ (consistent_autoInner vlen f i _ _ (consistent_store st (i, i) (f i i) h))

theorem consistent_crossInner (vlen : ℕ) (f : ℕ → ℕ → RawResult) (i : ℕ) :
    ∀ (js : List ℕ) (st : AccState), Consistent st → Consistent (crossInner vlen f i js st) := by
  intro js
  induction js with
  | nil => intro st h; exact h
  | cons j tl ih =>
    intro st h
    simp only [crossInner]
    refine ih _ ?_
    by_cases h1 : i = j ∨ 0 < sumNpairs vlen (f i j)
    · simp only [if_pos h1]
      exact consistent_store st (i, j) (f i j) h
    · simp only [if_neg h1]
      exact consistent_addTot st (i, j) (f i j) h

theorem consistent_crossOuter (vlen : ℕ) (f : ℕ → ℕ → RawResult) (n2 : ℕ) :
    ∀ (is' : List ℕ) (st : AccState), Consistent st → Consistent (crossOuter vlen f n2 is' st) := by
  intro is'
  induction is' with
  | nil => intro st h; exact h
  | cons i tl ih =>
    intro st h
    exact ih _ (consistent_crossInner vlen f i _ _ h)

theorem processAllAuto_mem (n vlen : ℕ) (f : ℕ → ℕ → RawResult) (i j : ℕ) :
    (i, j) ∈ ((processAllAuto n vlen f).results).map Prod.fst
      ↔ (i < n ∧ i = j) ∨ (i < j ∧ j < n ∧ 0 < sumNpairs vlen (f i j)) := by
  rw [processAllAuto, autoOuter_results]
  simp only [AccState.empty, List.nil_append, List.map_flatMap, List.map_cons,
    List.map_map, Function.comp_def, List.mem_flatMap, List.mem_cons, List.mem_map,
    List.mem_filter, List.mem_range, Prod.mk.injEq, decide_eq_true_eq]
  constructor
  · rintro ⟨x, hx, ⟨hxi, hxj⟩ | ⟨j2, ⟨hj2, hlt, hs⟩, hxi, hj2j⟩⟩
    · exact Or.inl ⟨by omega, by omega⟩
    · subst hxi
      subst hj2j
      exact Or.inr ⟨hlt, hj2, hs⟩
  · rintro (⟨hin, rfl⟩ | ⟨hij, hjn, hs⟩)
    · exact ⟨i, hin, Or.inl ⟨rfl, rfl⟩⟩
    · exact ⟨i, by omega, Or.inr ⟨j, ⟨hjn, hij, hs⟩, rfl, rfl⟩⟩

theorem processAllAuto_skipped_mem (n vlen : ℕ) (f : ℕ → ℕ → RawResult) (i j : ℕ) :
    (i, j) ∈ ((processAllAuto n vlen f).skipped).map Prod.fst
      ↔ i < j ∧ j < n ∧ ¬0 < sumNpairs vlen (f i j) := by
  rw [processAllAuto, autoOuter_skipped]
  simp only [AccState.empty, List.nil_append, List.map_flatMap, List.map_map,
    Function.comp_def, List.mem_flatMap, List.mem_map, List.mem_filter,
    List.mem_range, Prod.mk.injEq, decide_eq_true_eq]
  constructor
  · rintro ⟨x, hx, j2, ⟨hj2, hlt, hs⟩, hxi, hj2j⟩
    subst hxi
    subst hj2j
    exact ⟨hlt, hj2, hs⟩
  · rintro ⟨hij, hjn, hs⟩
    exact ⟨i, by omega, j, ⟨hjn, hij, hs⟩, rfl, rfl⟩

theorem processAllCross_mem (n1 n2 vlen : ℕ) (f : ℕ → ℕ → RawResult) (i j : ℕ) :
    (i, j) ∈ ((processAllCross n1 n2 vlen f).results).map Prod.fst
      ↔ i < n1 ∧ j < n2 ∧ (i = j ∨ 0 < sumNpairs vlen (f i j)) := by
  rw [processAllCross, crossOuter_results]
  simp only [AccState.empty, List.nil_append, List.map_flatMap, List.map_map,
    Function.comp_def, List.mem_flatMap, List.mem_map, List.mem_filter,
    List.mem_range, Prod.mk.injEq, decide_eq_true_eq]
  constructor
  · rintro ⟨x, hx, j2, ⟨hj2, hc⟩, hxi, hj2j⟩
    subst hxi
    subst hj2j
    exact ⟨hx, hj2, hc⟩
  · rintro ⟨hin, hjn, hc⟩
    exact ⟨i, hin, j, ⟨hjn, hc⟩, rfl, rfl⟩

theorem processAllCross_skipped_mem (n1 n2 vlen : ℕ) (f : ℕ → ℕ → RawResult) (i j : ℕ) :
    (i, j) ∈ ((processAllCross n1 n2 vlen f).skipped).map Prod.fst
      ↔ i < n1 ∧ j < n2 ∧ ¬(i = j ∨ 0 < sumNpairs vlen (f i j)) := by
  rw [processAllCross, crossOuter_skipped]
  simp only [AccState.empty, List.nil_append, List.map_flatMap, List.map_map,
    Function.comp_def, List.mem_flatMap, List.mem_map, List.mem_filter,
    List.mem_range, Prod.mk.injEq, decide_eq_true_eq]
  constructor
  · rintro ⟨x, hx, j2, ⟨hj2, hc⟩, hxi, hj2j⟩
    subst hxi
    subst hj2j
    exact ⟨hx, hj2, hc⟩
  · rintro ⟨hin, hjn, hc⟩
    exact ⟨i, hin, j, ⟨hjn, hc⟩, rfl, rfl⟩

/-- C7 (amended): during patched accumulation a computed pair result is stored
under key (i,j) iff `i == j` or the total of its `npairs` array is positive
(auto mode over `i <= j` with the diagonal always recorded; cross mode over
all `(i,j)` with the diagonal always recorded); whenever a computed result is
not recorded, the `_add_tot` hook receives it (and only it); and the
accumulated totals equal the merge of every stored result, with the `tot`
side channel also collecting the hook contributions of the unrecorded ones. -/
theorem patch_accumulation (n n1 n2 vlen : ℕ) (f : ℕ → ℕ → RawResult) :
    (∀ i j, (i, j) ∈ ((processAllAuto n vlen f).results).map Prod.fst
      ↔ (i < n ∧ i = j) ∨ (i < j ∧ j < n ∧ 0 < sumNpairs vlen (f i j)))
    ∧ (∀ i j, (i, j) ∈ ((processAllAuto n vlen f).skipped).map Prod.fst
      ↔ i < j ∧ j < n ∧ ¬0 < sumNpairs vlen (f i j))
    ∧ Consistent (processAllAuto n vlen f)
    ∧ (∀ i j, (i, j) ∈ ((processAllCross n1 n2 vlen f).results).map Prod.fst
      ↔ i < n1 ∧ j < n2 ∧ (i = j ∨ 0 < sumNpairs vlen (f i j)))
    ∧ (∀ i j, (i, j) ∈ ((processAllCross n1 n2 vlen f).skipped).map Prod.fst
      ↔ i < n1 ∧ j < n2 ∧ ¬(i = j ∨ 0 < sumNpairs vlen (f i j)))
    ∧ Consistent (processAllCross n1 n2 vlen f) :=
  ⟨processAllAuto_mem n vlen f, processAllAuto_skipped_mem n vlen f,
    consistent_autoOuter vlen f n _ _ consistent_empty,
    processAllCross_mem n1 n2 vlen f, processAllCross_skipped_mem n1 n2 vlen f,
    consistent_crossOuter vlen f n2 _ _ consistent_empty⟩

/-- C7 counterexample: in a 2-patch auto accumulation the cross result (0,1)
IS stored although its accumulated weight vector is identically zero and
0 != 1 — the recording test is `np.sum(npairs) > 0`, not nonzero weight,
refuting the claim's "stored iff i == j or accumulated weight is nonzero". -/
theorem stored_pair_with_zero_weight :
    (0, 1) ∈ ((processAllAuto 2 1 fCex).results).map Prod.fst
    ∧ (∀ t, (fCex 0 1).weight t = 0) ∧ ¬(0 = 1) := by
  refine ⟨?_, fun t => rfl, by decide⟩
  refine (processAllAuto_mem 2 1 fCex 0 1).mpr (Or.inr ⟨by decide, by decide, ?_⟩)
  norm_num [fCex, weightlessResult, sumNpairs]

/-- Witness for `jackknife_covariance`: the symmetric clause on the concrete
2x2 store and the singleton-second-axis clause on the concrete 2x1 store. -/
theorem jackknife_covariance_witness :
    (∃ M, covJackknife [patchCorr2] = .ok M ∧ ∀ a b, M a b = M b a)
    ∧ (∃ M, covJackknife [patchCorr21] = .ok M ∧ ∀ a b, M a b = M b a) := by
  obtain ⟨M, hM, -, hsym, -⟩ := (jackknife_covariance patchCorr2 2).1 (by decide)
    (by decide) (by decide) (by decide) (by decide)
  obtain ⟨M2, hM2, -, hsym2, -⟩ := (jackknife_covariance patchCorr21 2).2.1 (by decide)
    (by decide) (by decide) (by decide)
  exact ⟨⟨M, hM, hsym⟩, M2, hM2, hsym2⟩

/-- Witness for `bootstrap2_resampling` on the concrete 2x2 store. -/
theorem bootstrap2_resampling_witness :
    ((2 : ℕ) ≤ 2 ∧ keysOf patchCorr2 ≠ []
      ∧ ((keysOf patchCorr2).map Prod.fst).toFinset = Finset.range 2
      ∧ ((keysOf patchCorr2).map Prod.snd).toFinset = Finset.range 2)
    ∧ (∀ (indx : List ℕ) (a : ℕ),
        (boot2SamplePairs (keysOf patchCorr2) indx).count (a, a) = indx.count a)
    ∧ (∃ M, covBootstrap2 [patchCorr2] (fun _ _ => [0, 1]) = .ok M) := by
  obtain ⟨hauto, -, M, hM, -⟩ := bootstrap2_resampling patchCorr2 2 (fun _ _ => [0, 1])
    (by decide) (by decide) (by decide) (by decide)
  exact ⟨⟨by decide, by decide, by decide, by decide⟩,
    fun indx a => hauto (keysOf patchCorr2) indx a, M, hM⟩
